import Mathlib

/-!
Shallow embedding of the `complex-args` repository (src/util.py, src/parser.py,
src/variables.py) and verification of its specification claims.

Modelling conventions:
* Python strings are `List Char`; `str.find` returns `Int` (`-1` = not found),
  and positions are `Int` (Python integers), matching the source's arithmetic.
* Python exceptions are `Except PyErr`; `ParseError` and `ResolveError`
  messages are structured values carrying the same information as the
  source's f-strings (the repr of the converter object is elided).
* Python sets of ints are `Finset Int`.  CPython's `set.pop()` removes an
  implementation-defined element; where a variable evaluation result is
  popped we represent the evaluated set as a list in a canonical order and
  pop its head (the claims settled here do not depend on which element an
  arbitrary pop returns, only on whether an error is raised and on
  cardinalities/membership).
* `random.sample(container, k)` returns `k` elements drawn without
  replacement, i.e. a length-`k` sub-permutation of the container; it is
  modelled by an oracle `draw : Nat -> List Int` about which theorems assume
  exactly that (`IsSample`).
* `SampleVariable._id` is `random.randint(0, sys.maxsize)`, used only as an
  identity for hashing/equality; it is modelled by an explicit `id` field.
  The classifier assigns the (unique) absolute position of the token as the
  identity.
-/

namespace CArgs

/-- Python `int(...)` on the strings arising in this grammar: an optional
sign followed by one or more decimal digits (whitespace/underscore forms do
not occur in the tokens under consideration).  `none` models `ValueError`. -/
def digitsVal : List Char → Nat → Option Nat
  | [], acc => some acc
  | c :: t, acc => if c.isDigit then digitsVal t (acc * 10 + (c.toNat - 48)) else none

def pyIntOf (s : List Char) : Option Int :=
  match s with
  | [] => none
  | '-' :: rest => if rest = [] then none else (digitsVal rest 0).map (fun n => -(n : Int))
  | '+' :: rest => if rest = [] then none else (digitsVal rest 0).map (fun n => (n : Int))
  | _ => (digitsVal s 0).map (fun n => (n : Int))

/-- A level type converter (caller-supplied, opaque to the core);
`none` models the converter raising. -/
def Conv : Type := List Char → Option Int

/-- The integer converter used throughout the spec's examples. -/
def intConverter : Conv := pyIntOf

/-- util.valid_comp: compares two values which can be either non-negative
or -1, where any non-negative value is treated as smaller than -1. -/
def valid_comp (first second : Int) : Int :=
  if first = second then 0
  else if (first ≠ -1 ∧ first < second) ∨ second = -1 then -1
  else 1

/-- util.valid_min on a non-empty argument list (the `[]` case is
unreachable in the source, which indexes `elements[0]`). -/
def valid_min : List Int → Int
  | [] => 0
  | [x] => x
  | x :: xs =>
    let second := valid_min xs
    if valid_comp x second < 0 then x else second

/-- `s.take p.length == p`, i.e. Python `s.startswith(p)`. -/
def startsWithL (s p : List Char) : Bool := s.take p.length == p

/-- First index (from the front) at which `sub` occurs in `s`. -/
def findIn (s sub : List Char) : Option Nat :=
  if startsWithL s sub then some 0
  else
    match s with
    | [] => none
    | _ :: t => (findIn t sub).map (· + 1)

/-- Python `s.find(sub, start)`: smallest index `≥ start` at which `sub`
occurs, or `-1`. -/
def pyFind (s sub : List Char) (start : Nat) : Int :=
  if start > s.length then -1
  else
    match findIn (s.drop start) sub with
    | some k => ((start + k : Nat) : Int)
    | none => -1

/-- Python `s.split(sep)` for a non-empty separator (an empty separator
raises in Python and never occurs here); `fuel` is an upper bound on the
number of separator occurrences, `s.length + 1` always suffices. -/
def pySplitF : Nat → List Char → List Char → List (List Char)
  | 0, s, _ => [s]
  | fuel + 1, s, sep =>
    match findIn s sep with
    | none => [s]
    | some i => s.take i :: pySplitF fuel (s.drop (i + sep.length)) sep

def pySplit (s sep : List Char) : List (List Char) := pySplitF (s.length + 1) s sep

/-- Structured content of the source's `ParseError` / plain-exception
messages (f-string payloads kept as data, object reprs elided). -/
inductive PMsg where
  | cannotConvert (value : List Char)
  | expectedClosers (closer : List Char)
  | openerMissing (opener lazyOpener : List Char)
deriving DecidableEq

/-- Structured content of `ResolveError` messages. -/
inductive RMsg where
  | cannotDraw (n : Int) (available : Nat)
  | cannotDrawExcluding (n : Int) (available : Nat)
  | noOriginal
deriving DecidableEq

/-- The Python exceptions the embedded code can raise.  `parseError` is the
positioned `ParseError` of src/parser.py; `resolveError` is the
`ResolveError` of src/variables.py; the remaining constructors are the
plain builtin exceptions (`ValueError`, `IndexError`, `KeyError`) that
escape undecorated. -/
inductive PyErr where
  | parseError (position : Int) (message : PMsg)
  | valueError
  | indexError
  | keyError
  | resolveError (message : RMsg)
deriving DecidableEq

instance {ε α : Type} [DecidableEq ε] [DecidableEq α] : DecidableEq (Except ε α)
  | .error a, .error b =>
    if h : a = b then .isTrue (by rw [h]) else .isFalse (fun he => h (Except.error.inj he))
  | .error _, .ok _ => .isFalse Except.noConfusion
  | .ok _, .error _ => .isFalse Except.noConfusion
  | .ok a, .ok b =>
    if h : a = b then .isTrue (by rw [h]) else .isFalse (fun he => h (Except.ok.inj he))

/-- Endpoints of a `RangeVariable`: either a fixed int or (the data of) one
of the variable shapes `convert` can produce. -/
inductive Endpoint where
  | lit (v : Int)
  | idx (i : Int)
  | size
  | const (v : Int)
  | all
  | sample (n : Int) (excludeOriginal : Bool) (id : Int)
  | random (excludeOriginal : Bool) (id : Int)
deriving DecidableEq

/-- The variable (placeholder) hierarchy of src/variables.py.
`sample`/`random` carry the explicit identity that models
`SampleVariable._id` (identity-based equality); the remaining variants
compare structurally (in Python they compare by object identity, which is
strictly finer; no claim settled here distinguishes the two). -/
inductive Variable where
  | index (i : Int)
  | size
  | const (v : Int)
  | all
  | sample (n : Int) (excludeOriginal : Bool) (id : Int)
  | random (excludeOriginal : Bool) (id : Int)
  | range (first last : Endpoint)
deriving DecidableEq

/-- parser.convert: classifies one token into a variable or a converted
literal.  The result is reported as an `Endpoint` since the possible
outcomes (a variable of one of the five shapes, or a literal value) are
exactly the endpoint shapes; `.lit` means "converted literal value".
`pos` is `overall_position` and doubles as the identity given to a freshly
created sample/random variable. -/
def convert (value : List Char) (level_type_converter : Conv)
    (index_specifier random_specifier all_specifier : List Char)
    (pos : Int) : Except PyErr Endpoint :=
  if startsWithL value index_specifier then
    if startsWithL value (index_specifier ++ index_specifier) then
      .ok .size
    else
      match pyIntOf (value.drop index_specifier.length) with
      | some i => .ok (.idx i)
      | none => .error .valueError
  else if startsWithL value random_specifier then
    let exclude_original := startsWithL value (random_specifier ++ random_specifier)
    if value = random_specifier then
      .ok (.random exclude_original pos)
    else
      match pyIntOf (value.drop random_specifier.length) with
      | some n => .ok (.sample n exclude_original pos)
      | none => .error .valueError
  else if value = all_specifier then
    .ok .all
  else
    match level_type_converter value with
    | some x => .ok (.lit x)
    | none => .error (.parseError pos (.cannotConvert value))

/-- The default grammar symbols of src/parser.py, bundled. -/
structure Sym where
  level_opener : List Char
  lazy_opener : List Char
  level_closer : List Char
  level_delimiter : List Char
  listing_delimiter : List Char
  range_delimiter : List Char
  index_specifier : List Char
  random_specifier : List Char
  all_specifier : List Char

def defaultSym : Sym :=
  { level_opener := [':', '[']
    lazy_opener := [':']
    level_closer := [']']
    level_delimiter := [',']
    listing_delimiter := [',']
    range_delimiter := ['~']
    index_specifier := ['#']
    random_specifier := ['?']
    all_specifier := ['*'] }

/-- Python sequence indexing `container[i]` (negative indices wrap;
out-of-range raises `IndexError`). -/
def pyGet (container : List Int) (i : Int) : Except PyErr Int :=
  let j : Int := if i < 0 then i + container.length else i
  if 0 ≤ j ∧ j < container.length then .ok (container.getD j.toNat 0)
  else .error .indexError

/-- Python `range(first, last + 1)` as the ascending list of ints. -/
def pyRangeIncl (first last : Int) : List Int :=
  (List.range (last + 1 - first).toNat).map (fun (k : Nat) => first + (k : Int))

/-- `random.sample(container, k)` returns a list of `k` elements drawn
without replacement, i.e. a length-`k` sub-permutation of the container. -/
def IsSample (container : List Int) (k : Nat) (d : List Int) : Prop :=
  d.length = k ∧ d.Subperm container

/-- SampleVariable.evaluate (shared by RandomVariable with `n = 1`).
`draw k` is the oracle modelling `random.sample(container, k)`; the
`set(...)` built from the draw is represented as the deduplicated draw
list, and `set.pop()` as removal of its head (which element CPython pops
is implementation-defined; no settled claim depends on the choice). -/
def sampleEvaluate (draw : Nat → List Int) (n : Int) (exclude_original : Bool)
    (container : List Int) (original_value : Option Int) : Except PyErr (List Int) :=
  if !exclude_original then
    if n > (container.length : Int) then
      .error (.resolveError (.cannotDraw n container.length))
    else if n < 0 then .error .valueError
    else .ok (draw n.toNat).dedup
  else
    match original_value with
    | none => .error (.resolveError .noOriginal)
    | some ov =>
      if n + 1 > (container.length : Int) then
        .error (.resolveError (.cannotDrawExcluding n container.length))
      else if n + 1 < 0 then .error .valueError
      else
        let result := (draw (n + 1).toNat).dedup
        if ov ∈ result then .ok (result.erase ov)
        else
          match result with
          | [] => .error .keyError
          | _ :: t => .ok t

/-- Evaluation of an endpoint when it is a variable (`RangeVariable.evaluate`
calls `endpoint.evaluate(container)` without an original value).  Returns
the evaluated set as a list in canonical order.  `.lit` endpoints are not
evaluated (the source's `except AttributeError: pass`). -/
def endpointSetList (draw : Nat → List Int) (e : Endpoint) (container : List Int) :
    Except PyErr (List Int) :=
  match e with
  | .lit v => .ok [v]
  | .idx i => (pyGet container i).map (fun x => [x])
  | .size => .ok [(container.length : Int)]
  | .const v => .ok [v]
  | .all => .ok container.dedup
  | .sample n ex _ => sampleEvaluate draw n ex container none
  | .random ex _ => sampleEvaluate draw 1 ex container none

/-- `first.evaluate(container).pop()` on a range endpoint: a `.lit` stays
as it is (`AttributeError` path); a variable endpoint is evaluated and an
element popped from the resulting set (`KeyError` on an empty set). -/
def endpointPop (draw : Nat → List Int) (e : Endpoint) (container : List Int) :
    Except PyErr Int :=
  match e with
  | .lit v => .ok v
  | _ =>
    match endpointSetList draw e container with
    | .error err => .error err
    | .ok [] => .error .keyError
    | .ok (h :: _) => .ok h

/-- Variable.evaluate of src/variables.py, per variant.  The result set is
a list in canonical order (ascending for ranges, draw order for samples,
container order for `all`). -/
def Variable.evaluate (draw : Nat → List Int) (v : Variable) (container : List Int)
    (original_value : Option Int) : Except PyErr (List Int) :=
  match v with
  | .index i => (pyGet container i).map (fun x => [x])
  | .size => .ok [(container.length : Int)]
  | .const c => .ok [c]
  | .all => .ok container.dedup
  | .sample n ex _ => sampleEvaluate draw n ex container original_value
  | .random ex _ => sampleEvaluate draw 1 ex container original_value
  | .range first last => do
    let f ← endpointPop draw first container
    let l ← endpointPop draw last container
    .ok (pyRangeIncl f l)

/-- Python set-add for the variable partitions: CPython iterates sets in an
implementation-defined order, determinized here as insertion order on a
duplicate-free list. -/
def setAdd (l : List Variable) (v : Variable) : List Variable :=
  if v ∈ l then l else l ++ [v]

/-- Python `set.union` for the variable partitions (same determinization). -/
def setUnionV (l1 l2 : List Variable) : List Variable :=
  l1 ++ l2.filter (fun v => decide (v ∉ l1))

/-- Python set-add for the fixed partitions (same determinization). -/
def setAddI (l : List Int) (x : Int) : List Int :=
  if x ∈ l then l else l ++ [x]

/-- Python `set.union` for the fixed partitions. -/
def setUnionI (l1 l2 : List Int) : List Int :=
  l1 ++ l2.filter (fun x => decide (x ∉ l1))

/-- VariableSet: the pair of partitions of a value-set (fixed values and
deferred variables), each a CPython set determinized as an
insertion-ordered duplicate-free list (see `setAdd`); claims about the
sets they denote are phrased through `List.toFinset`. -/
structure VariableSet where
  fixed_parts : List Int
  variable_parts : List Variable
deriving DecidableEq

/-- The container produced by the tree parser: a VariableSet at the deepest
level, or a VariableDict (fixed and variable key partitions, each an
insertion-ordered association list as a Python dict) above it. -/
inductive VariableContainer where
  | set (s : VariableSet)
  | dict (fixed_parts : List (Int × VariableContainer))
         (variable_parts : List (Variable × VariableContainer))

/-- Python dict lookup on an association list. -/
def alistLookup {κ β : Type} [DecidableEq κ] (l : List (κ × β)) (k : κ) : Option β :=
  (l.find? (fun p => decide (p.1 = k))).map (fun p => p.2)

/-- Python dict assignment to an existing key: replaces the value at the
first (only) occurrence, preserving position. -/
def alistUpdate {κ β : Type} [DecidableEq κ] : List (κ × β) → κ → β → List (κ × β)
  | [], _, _ => []
  | (k', v') :: t, k, v =>
    if k' = k then (k', v) :: t else (k', v') :: alistUpdate t k v

mutual

/-- variables.merge: deep merge of two containers of the same kind.
`ValueError` when the kinds differ.  (The source deep-copies both dicts
first; in this pure embedding copying is the identity, and the aliasing
content of that copy is verified separately on the heap model below.)
This is the claim-level transcription; `mergeEngine` below is the same
function with explicit fuel, used inside the fuelled parser so that
concrete parses evaluate by kernel reduction. -/
def merge : VariableContainer → VariableContainer → Except PyErr VariableContainer
  | .set s1, .set s2 =>
    .ok (.set ⟨setUnionI s1.fixed_parts s2.fixed_parts,
               setUnionV s1.variable_parts s2.variable_parts⟩)
  | .dict f1 v1, .dict f2 v2 => do
    let mf ← mergeEntriesF f1 f2
    let mv ← mergeEntriesV v1 v2
    .ok (.dict mf mv)
  | .set _, .dict _ _ => .error .valueError
  | .dict _ _, .set _ => .error .valueError

/-- The fixed-key loop of variables.merge: iterate the second dict's
entries; a key absent from the accumulator is appended, a present key has
the two subtrees merged recursively. -/
def mergeEntriesF (acc : List (Int × VariableContainer)) :
    List (Int × VariableContainer) → Except PyErr (List (Int × VariableContainer))
  | [] => .ok acc
  | (k, v) :: rest =>
    match alistLookup acc k with
    | none => mergeEntriesF (acc ++ [(k, v)]) rest
    | some old => do
      let m ← merge old v
      mergeEntriesF (alistUpdate acc k m) rest

/-- The variable-key loop of variables.merge (same shape as the fixed-key
loop). -/
def mergeEntriesV (acc : List (Variable × VariableContainer)) :
    List (Variable × VariableContainer) → Except PyErr (List (Variable × VariableContainer))
  | [] => .ok acc
  | (k, v) :: rest =>
    match alistLookup acc k with
    | none => mergeEntriesV (acc ++ [(k, v)]) rest
    | some old => do
      let m ← merge old v
      mergeEntriesV (alistUpdate acc k m) rest

end

/-- Call states of the fuelled merge engine: a pair of containers, or one
of the two per-partition entry loops in progress. -/
inductive MCall where
  | containers (a b : VariableContainer)
  | intEntries (acc ent : List (Int × VariableContainer))
  | varEntries (acc ent : List (Variable × VariableContainer))

/-- Results of the fuelled merge engine, by call state kind. -/
inductive MRes where
  | container (c : VariableContainer)
  | intEntries (l : List (Int × VariableContainer))
  | varEntries (l : List (Variable × VariableContainer))

/-- variables.merge again, as a single fuelled function (structural
recursion on the fuel, so that it reduces inside the kernel; `none` means
fuel ran out; the catch-all `some (.ok _) => none` branches are
result-kind mismatches that cannot occur).  `theorem mergeEngine_agrees`
proves it computes exactly `merge`/`mergeEntriesF`/`mergeEntriesV`. -/
def mergeEngine : Nat → MCall → Option (Except PyErr MRes)
  | 0, _ => none
  | fuel + 1, st =>
    match st with
    | .containers (.set s1) (.set s2) =>
      some (.ok (.container (.set ⟨setUnionI s1.fixed_parts s2.fixed_parts,
        setUnionV s1.variable_parts s2.variable_parts⟩)))
    | .containers (.dict f1 v1) (.dict f2 v2) =>
      match mergeEngine fuel (.intEntries f1 f2) with
      | none => none
      | some (.error e) => some (.error e)
      | some (.ok (.intEntries mf)) =>
        match mergeEngine fuel (.varEntries v1 v2) with
        | none => none
        | some (.error e) => some (.error e)
        | some (.ok (.varEntries mv)) => some (.ok (.container (.dict mf mv)))
        | some (.ok _) => none
      | some (.ok _) => none
    | .containers _ _ => some (.error .valueError)
    | .intEntries acc [] => some (.ok (.intEntries acc))
    | .intEntries acc ((k, v) :: rest) =>
      (match alistLookup acc k with
      | none => mergeEngine fuel (.intEntries (acc ++ [(k, v)]) rest)
      | some old =>
        match mergeEngine fuel (.containers old v) with
        | none => none
        | some (.error e) => some (.error e)
        | some (.ok (.container m)) =>
          mergeEngine fuel (.intEntries (alistUpdate acc k m) rest)
        | some (.ok _) => none)
    | .varEntries acc [] => some (.ok (.varEntries acc))
    | .varEntries acc ((k, v) :: rest) =>
      (match alistLookup acc k with
      | none => mergeEngine fuel (.varEntries (acc ++ [(k, v)]) rest)
      | some old =>
        match mergeEngine fuel (.containers old v) with
        | none => none
        | some (.error e) => some (.error e)
        | some (.ok (.container m)) =>
          mergeEngine fuel (.varEntries (alistUpdate acc k m) rest)
        | some (.ok _) => none)

/-! Equation lemmas for the mutual well-founded definitions above. -/

theorem merge_set_set (s1 s2 : VariableSet) :
    merge (.set s1) (.set s2)
      = .ok (.set ⟨setUnionI s1.fixed_parts s2.fixed_parts,
                   setUnionV s1.variable_parts s2.variable_parts⟩) := by
  rw [merge.eq_def]

theorem merge_set_dict (s : VariableSet) (f : List (Int × VariableContainer))
    (v : List (Variable × VariableContainer)) :
    merge (.set s) (.dict f v) = .error .valueError := by
  rw [merge.eq_def]

theorem merge_dict_set (f : List (Int × VariableContainer))
    (v : List (Variable × VariableContainer)) (s : VariableSet) :
    merge (.dict f v) (.set s) = .error .valueError := by
  rw [merge.eq_def]

theorem merge_dict_dict (f1 : List (Int × VariableContainer))
    (v1 : List (Variable × VariableContainer)) (f2 : List (Int × VariableContainer))
    (v2 : List (Variable × VariableContainer)) :
    merge (.dict f1 v1) (.dict f2 v2)
      = match mergeEntriesF f1 f2 with
        | .error e => .error e
        | .ok mf =>
          match mergeEntriesV v1 v2 with
          | .error e => .error e
          | .ok mv => .ok (.dict mf mv) := by
  rw [merge.eq_def]
  show (do
    let mf ← mergeEntriesF f1 f2
    let mv ← mergeEntriesV v1 v2
    Except.ok (VariableContainer.dict mf mv)) = _
  cases mergeEntriesF f1 f2 with
  | error e => rfl
  | ok mf =>
    show (do
      let mv ← mergeEntriesV v1 v2
      Except.ok (VariableContainer.dict mf mv))
      = match mergeEntriesV v1 v2 with
        | .error e => .error e
        | .ok mv => .ok (.dict mf mv)
    cases mergeEntriesV v1 v2 <;> rfl

theorem mergeEntriesF_nil (acc : List (Int × VariableContainer)) :
    mergeEntriesF acc [] = .ok acc := by
  rw [mergeEntriesF.eq_def]

theorem mergeEntriesF_cons (acc : List (Int × VariableContainer)) (k : Int)
    (v : VariableContainer) (rest : List (Int × VariableContainer)) :
    mergeEntriesF acc ((k, v) :: rest)
      = match alistLookup acc k with
        | none => mergeEntriesF (acc ++ [(k, v)]) rest
        | some old =>
          match merge old v with
          | .error e => .error e
          | .ok m => mergeEntriesF (alistUpdate acc k m) rest := by
  rw [mergeEntriesF.eq_def]
  show (match alistLookup acc k with
        | none => mergeEntriesF (acc ++ [(k, v)]) rest
        | some old => do
          let m ← merge old v
          mergeEntriesF (alistUpdate acc k m) rest) = _
  cases alistLookup acc k with
  | none => rfl
  | some old =>
    show (do
      let m ← merge old v
      mergeEntriesF (alistUpdate acc k m) rest)
      = match merge old v with
        | .error e => .error e
        | .ok m => mergeEntriesF (alistUpdate acc k m) rest
    cases merge old v <;> rfl

theorem mergeEntriesV_nil (acc : List (Variable × VariableContainer)) :
    mergeEntriesV acc [] = .ok acc := by
  rw [mergeEntriesV.eq_def]

theorem mergeEntriesV_cons (acc : List (Variable × VariableContainer)) (k : Variable)
    (v : VariableContainer) (rest : List (Variable × VariableContainer)) :
    mergeEntriesV acc ((k, v) :: rest)
      = match alistLookup acc k with
        | none => mergeEntriesV (acc ++ [(k, v)]) rest
        | some old =>
          match merge old v with
          | .error e => .error e
          | .ok m => mergeEntriesV (alistUpdate acc k m) rest := by
  rw [mergeEntriesV.eq_def]
  show (match alistLookup acc k with
        | none => mergeEntriesV (acc ++ [(k, v)]) rest
        | some old => do
          let m ← merge old v
          mergeEntriesV (alistUpdate acc k m) rest) = _
  cases alistLookup acc k with
  | none => rfl
  | some old =>
    show (do
      let m ← merge old v
      mergeEntriesV (alistUpdate acc k m) rest)
      = match merge old v with
        | .error e => .error e
        | .ok m => mergeEntriesV (alistUpdate acc k m) rest
    cases merge old v <;> rfl

/-- What the fuelled engine is supposed to compute in each call state. -/
def mergeSpecOf : MCall → Except PyErr MRes
  | .containers a b => (merge a b).map MRes.container
  | .intEntries acc ent => (mergeEntriesF acc ent).map MRes.intEntries
  | .varEntries acc ent => (mergeEntriesV acc ent).map MRes.varEntries

/-- Whenever the fuelled merge engine completes, it computes exactly the
claim-level `merge`/`mergeEntriesF`/`mergeEntriesV`. -/
theorem mergeEngine_agrees : ∀ (fuel : Nat) (st : MCall) (r : Except PyErr MRes),
    mergeEngine fuel st = some r → r = mergeSpecOf st := by
  intro fuel
  induction fuel with
  | zero => intro st r h; cases h
  | succ f ih =>
    intro st r h
    match st with
    | .containers (.set s1) (.set s2) =>
      obtain rfl := Option.some.inj h
      show _ = Except.map MRes.container (merge (.set s1) (.set s2))
      rw [merge_set_set]
      rfl
    | .containers (.set s1) (.dict f2 v2) =>
      obtain rfl := Option.some.inj h
      show _ = Except.map MRes.container (merge (.set s1) (.dict f2 v2))
      rw [merge_set_dict]
      rfl
    | .containers (.dict f1 v1) (.set s2) =>
      obtain rfl := Option.some.inj h
      show _ = Except.map MRes.container (merge (.dict f1 v1) (.set s2))
      rw [merge_dict_set]
      rfl
    | .containers (.dict f1 v1) (.dict f2 v2) =>
      show _ = Except.map MRes.container (merge (.dict f1 v1) (.dict f2 v2))
      rw [merge_dict_dict]
      have h1 : (match mergeEngine f (.intEntries f1 f2) with
             | none => none
             | some (.error e) => some (.error e)
             | some (.ok (.intEntries mf)) =>
               match mergeEngine f (.varEntries v1 v2) with
               | none => none
               | some (.error e) => some (.error e)
               | some (.ok (.varEntries mv)) =>
                 some (.ok (.container (.dict mf mv)))
               | some (.ok _) => none
             | some (.ok _) => none)
          = some r := h
      cases hF : mergeEngine f (.intEntries f1 f2) with
      | none => rw [hF] at h1; cases h1
      | some rF =>
        have hFa : rF = Except.map MRes.intEntries (mergeEntriesF f1 f2) :=
          ih (.intEntries f1 f2) rF hF
        rw [hF] at h1
        cases hmf : mergeEntriesF f1 f2 with
        | error e' =>
          rw [hmf] at hFa
          subst hFa
          obtain rfl := Option.some.inj h1
          rfl
        | ok mf =>
          rw [hmf] at hFa
          subst hFa
          have h2 : (match mergeEngine f (.varEntries v1 v2) with
               | none => none
               | some (.error e) => some (.error e)
               | some (.ok (.varEntries mv)) =>
                 some (.ok (.container (.dict mf mv)))
               | some (.ok _) => none)
              = some r := h1
          cases hV : mergeEngine f (.varEntries v1 v2) with
          | none => rw [hV] at h2; cases h2
          | some rV =>
            have hVa : rV = Except.map MRes.varEntries (mergeEntriesV v1 v2) :=
              ih (.varEntries v1 v2) rV hV
            rw [hV] at h2
            cases hmv : mergeEntriesV v1 v2 with
            | error e' =>
              rw [hmv] at hVa
              subst hVa
              obtain rfl := Option.some.inj h2
              rfl
            | ok mv =>
              rw [hmv] at hVa
              subst hVa
              obtain rfl := Option.some.inj h2
              rfl
    | .intEntries acc [] =>
      obtain rfl := Option.some.inj h
      show _ = Except.map MRes.intEntries (mergeEntriesF acc [])
      rw [mergeEntriesF_nil]
      rfl
    | .intEntries acc ((k, v) :: rest) =>
      show _ = Except.map MRes.intEntries (mergeEntriesF acc ((k, v) :: rest))
      rw [mergeEntriesF_cons]
      cases hacc : alistLookup acc k with
      | none =>
        have h1 : mergeEngine f (.intEntries (acc ++ [(k, v)]) rest) = some r := by
          have h0 : (match alistLookup acc k with
               | none => mergeEngine f (.intEntries (acc ++ [(k, v)]) rest)
               | some old =>
                 match mergeEngine f (.containers old v) with
                 | none => none
                 | some (.error e) => some (.error e)
                 | some (.ok (.container m)) =>
                   mergeEngine f (.intEntries (alistUpdate acc k m) rest)
                 | some (.ok _) => none)
              = some r := h
          rw [hacc] at h0
          exact h0
        exact ih (.intEntries (acc ++ [(k, v)]) rest) r h1
      | some old =>
        have h1 : (match mergeEngine f (.containers old v) with
             | none => none
             | some (.error e) => some (.error e)
             | some (.ok (.container m)) =>
               mergeEngine f (.intEntries (alistUpdate acc k m) rest)
             | some (.ok _) => none)
            = some r := by
          have h0 : (match alistLookup acc k with
               | none => mergeEngine f (.intEntries (acc ++ [(k, v)]) rest)
               | some old =>
                 match mergeEngine f (.containers old v) with
                 | none => none
                 | some (.error e) => some (.error e)
                 | some (.ok (.container m)) =>
                   mergeEngine f (.intEntries (alistUpdate acc k m) rest)
                 | some (.ok _) => none)
              = some r := h
          rw [hacc] at h0
          exact h0
        show r = Except.map MRes.intEntries
          (match merge old v with
           | .error e => .error e
           | .ok m => mergeEntriesF (alistUpdate acc k m) rest)
        cases hC : mergeEngine f (.containers old v) with
        | none => rw [hC] at h1; cases h1
        | some rC =>
          have hCa : rC = Except.map MRes.container (merge old v) :=
            ih (.containers old v) rC hC
          rw [hC] at h1
          cases hmg : merge old v with
          | error e' =>
            rw [hmg] at hCa
            subst hCa
            obtain rfl := Option.some.inj h1
            rfl
          | ok z =>
            rw [hmg] at hCa
            subst hCa
            exact ih (.intEntries (alistUpdate acc k z) rest) r h1
    | .varEntries acc [] =>
      obtain rfl := Option.some.inj h
      show _ = Except.map MRes.varEntries (mergeEntriesV acc [])
      rw [mergeEntriesV_nil]
      rfl
    | .varEntries acc ((k, v) :: rest) =>
      show _ = Except.map MRes.varEntries (mergeEntriesV acc ((k, v) :: rest))
      rw [mergeEntriesV_cons]
      cases hacc : alistLookup acc k with
      | none =>
        have h1 : mergeEngine f (.varEntries (acc ++ [(k, v)]) rest) = some r := by
          have h0 : (match alistLookup acc k with
               | none => mergeEngine f (.varEntries (acc ++ [(k, v)]) rest)
               | some old =>
                 match mergeEngine f (.containers old v) with
                 | none => none
                 | some (.error e) => some (.error e)
                 | some (.ok (.container m)) =>
                   mergeEngine f (.varEntries (alistUpdate acc k m) rest)
                 | some (.ok _) => none)
              = some r := h
          rw [hacc] at h0
          exact h0
        exact ih (.varEntries (acc ++ [(k, v)]) rest) r h1
      | some old =>
        have h1 : (match mergeEngine f (.containers old v) with
             | none => none
             | some (.error e) => some (.error e)
             | some (.ok (.container m)) =>
               mergeEngine f (.varEntries (alistUpdate acc k m) rest)
             | some (.ok _) => none)
            = some r := by
          have h0 : (match alistLookup acc k with
               | none => mergeEngine f (.varEntries (acc ++ [(k, v)]) rest)
               | some old =>
                 match mergeEngine f (.containers old v) with
                 | none => none
                 | some (.error e) => some (.error e)
                 | some (.ok (.container m)) =>
                   mergeEngine f (.varEntries (alistUpdate acc k m) rest)
                 | some (.ok _) => none)
              = some r := h
          rw [hacc] at h0
          exact h0
        show r = Except.map MRes.varEntries
          (match merge old v with
           | .error e => .error e
           | .ok m => mergeEntriesV (alistUpdate acc k m) rest)
        cases hC : mergeEngine f (.containers old v) with
        | none => rw [hC] at h1; cases h1
        | some rC =>
          have hCa : rC = Except.map MRes.container (merge old v) :=
            ih (.containers old v) rC hC
          rw [hC] at h1
          cases hmg : merge old v with
          | error e' =>
            rw [hmg] at hCa
            subst hCa
            obtain rfl := Option.some.inj h1
            rfl
          | ok z =>
            rw [hmg] at hCa
            subst hCa
            exact ih (.varEntries (alistUpdate acc k z) rest) r h1

/-- Completing runs of the engine on a container pair compute `merge`. -/
theorem merge_of_engine (fuel : Nat) {a b m : VariableContainer}
    (h : mergeEngine fuel (.containers a b) = some (.ok (.container m))) :
    merge a b = .ok m := by
  have ha : Except.ok (MRes.container m) = Except.map MRes.container (merge a b) :=
    mergeEngine_agrees fuel (.containers a b) (.ok (.container m)) h
  cases hm : merge a b with
  | error e =>
    rw [hm] at ha
    cases ha
  | ok c =>
    rw [hm] at ha
    obtain h2 := Except.ok.inj ha
    rw [MRes.container.inj h2]

/-- The per-segment loop of parser.unravel, threading `overall_position`
and the two partitions.  Mirrors the source: a segment containing the
range delimiter is split (exactly two parts, otherwise the tuple
unpacking raises `ValueError`) and both sides classified — a variable on
either side makes a deferred RangeVariable, two literals materialize the
inclusive integer range; a plain segment is classified directly.  On every
branch the position then advances by the segment's length plus one
listing-delimiter width. -/
def unravelSegs (sym : Sym) (level_type_converter : Conv) :
    List (List Char) → Int → List Int → List Variable → Except PyErr VariableSet
  | [], _, fixed, vars => .ok ⟨fixed, vars⟩
  | seg :: rest, pos, fixed, vars =>
    let next (fixed' : List Int) (vars' : List Variable) :=
      unravelSegs sym level_type_converter rest
        (pos + seg.length + sym.listing_delimiter.length) fixed' vars'
    if 0 ≤ pyFind seg sym.range_delimiter 0 then
      match pySplit seg sym.range_delimiter with
      | [first_tmp, last_tmp] => do
        let first ← convert first_tmp level_type_converter
          sym.index_specifier sym.random_specifier sym.all_specifier pos
        let last ← convert last_tmp level_type_converter
          sym.index_specifier sym.random_specifier sym.all_specifier
          (pos + first_tmp.length + sym.range_delimiter.length)
        match first, last with
        | .lit x, .lit y => next ((pyRangeIncl x y).foldl setAddI fixed) vars
        | _, _ => next fixed (setAdd vars (Variable.range first last))
      | _ => .error .valueError
    else do
      let element ← convert seg level_type_converter
        sym.index_specifier sym.random_specifier sym.all_specifier pos
      match element with
      | .lit x => next (setAddI fixed x) vars
      | .idx i => next fixed (setAdd vars (Variable.index i))
      | .size => next fixed (setAdd vars Variable.size)
      | .const c => next fixed (setAdd vars (Variable.const c))
      | .all => next fixed (setAdd vars Variable.all)
      | .sample n ex id => next fixed (setAdd vars (Variable.sample n ex id))
      | .random ex id => next fixed (setAdd vars (Variable.random ex id))

/-- parser.unravel: resolves a comma-separated listing into a VariableSet;
empty text yields the empty value-set. -/
def unravel (listing : List Char) (level_type_converter : Conv) (sym : Sym)
    (pos : Int) : Except PyErr VariableSet :=
  if listing.length > 0 then
    unravelSegs sym level_type_converter (pySplit listing sym.listing_delimiter) pos [] []
  else .ok ⟨[], []⟩

/-- `remove_trailing_lazy_openers` of parse_tree. -/
def dropLazy (sym : Sym) : List (List Char) → List (List Char)
  | [] => []
  | s :: t => if s = sym.lazy_opener then dropLazy sym t else s :: t

/-- The inner bracket-matching loop of parse_tree (lines 194-233): scan
`tail` from `cp`, maintaining the stack of pending openers, and return the
final `current_position` together with the `done` flag, or the
missing-closers `ParseError`.  `basePos` is the enclosing
`overall_position`.  One unit of fuel per iteration;
`tail.length + 2` always suffices since `cp` strictly increases. -/
def innerScan (sym : Sym) (tail : List Char) (basePos : Int) :
    Nat → Nat → List (List Char) → Option (Except PyErr (Nat × Bool))
  | 0, _, _ => none
  | fuel + 1, cp, stack =>
    let next_opener0 := pyFind tail sym.level_opener cp
    let next_lazy := pyFind tail sym.lazy_opener cp
    let next_closer := pyFind tail sym.level_closer cp
    let lazyFirst := valid_comp next_lazy next_opener0 < 0
    let next_opener := if lazyFirst then next_lazy else next_opener0
    let next_opener_symbol := if lazyFirst then sym.lazy_opener else sym.level_opener
    let terminal := next_closer = -1
    if valid_comp next_opener next_closer < 0 then
      innerScan sym tail basePos fuel
        (next_opener.toNat + next_opener_symbol.length) (next_opener_symbol :: stack)
    else
      let stack1 := dropLazy sym stack
      match (if terminal then some stack1
             else match stack1 with
                  | [] => none
                  | _ :: t => some t) with
      | none => some (.error .indexError)
      | some stack2 =>
        let doneNow := terminal ∨ next_closer + sym.level_closer.length = tail.length
        let stack3 := if doneNow then dropLazy sym stack2 else stack2
        if doneNow ∧ stack3 ≠ [] then
          some (.error (.parseError (basePos + tail.length) (.expectedClosers sym.level_closer)))
        else if stack3 = [] then
          if terminal then some (.ok (tail.length, True))
          else some (.ok (next_closer.toNat, doneNow))
        else
          innerScan sym tail basePos fuel (next_closer.toNat + sym.level_closer.length) stack3

/-- Call states of the fuelled tree parser: a fresh `parse_tree` call, or
an iteration of its outer `while True` loop with the accumulated result. -/
inductive PCall where
  | tree (tree : List Char) (convs : List Conv) (pos : Int)
  | outer (tree : List Char) (convs : List Conv) (pos : Int) (acc : VariableContainer)

/-- parser.parse_tree as a single fuelled engine (structural recursion on
the fuel so that concrete parses reduce inside the kernel; `none` = fuel
ran out, never reached from the `parse_tree` wrapper below).

`.tree`: base case — exactly one converter left, the whole text is a
single listing (4.2); otherwise start the outer loop on an empty
VariableDict.

`.outer`: one iteration of the outer `while True` loop: locate the first
opener (lazy wins only by string position), delimit the body with
`innerScan`, recurse into the body with one fewer converter, resolve the
roots listing with the original first converter, bind every root key to
the parsed body and deep-merge into the accumulator; continue on the
remaining text unless `done`. -/
def parseEngine (sym : Sym) : Nat → PCall → Option (Except PyErr VariableContainer)
  | 0, _ => none
  | fuel + 1, .tree tree convs pos =>
    if convs.length = 1 then
      some (((unravel tree (convs.getD 0 intConverter) sym pos).map VariableContainer.set))
    else
      parseEngine sym fuel (.outer tree convs pos (.dict [] []))
  | fuel + 1, .outer tree convs pos acc =>
    let first_opener := pyFind tree sym.level_opener 0
    let first_lazy := pyFind tree sym.lazy_opener 0
    let pick : Option (List Char) :=
      if valid_comp first_lazy first_opener < 0 then some sym.lazy_opener
      else if first_opener > -1 then some sym.level_opener
      else none
    match pick with
    | none =>
      let next_closer := valid_min [pyFind tree sym.level_closer 0, (tree.length : Int)]
      some (.error (.parseError (pos + next_closer)
        (.openerMissing sym.level_opener sym.lazy_opener)))
    | some opSym =>
      let cut := (if valid_comp first_lazy first_opener < 0 then first_lazy
                  else first_opener).toNat
      let next_roots := tree.take cut
      let tail := tree.drop (cut + opSym.length)
      match innerScan sym tail pos (tail.length + 2) 0 [opSym] with
      | none => none
      | some (.error e) => some (.error e)
      | some (.ok (cp, done)) =>
        let sub_trees := tail.take cp
        match parseEngine sym fuel (.tree sub_trees convs.tail
          (pos + next_roots.length + opSym.length)) with
        | none => none
        | some (.error e) => some (.error e)
        | some (.ok sub_trees_processed) =>
          match convs with
          | [] => some (.error .indexError)
          | c0 :: _ =>
            match unravel next_roots c0 sym pos with
            | .error e => some (.error e)
            | .ok roots_unraveled =>
              let level : VariableContainer := .dict
                (roots_unraveled.fixed_parts.map
                  (fun k => (k, sub_trees_processed)))
                (roots_unraveled.variable_parts.map
                  (fun k => (k, sub_trees_processed)))
              match mergeEngine (fuel + 1) (.containers acc level) with
              | none => none
              | some (.error e) => some (.error e)
              | some (.ok (.container result)) =>
                if done then some (.ok result)
                else
                  let shift := cp + sym.level_closer.length + sym.level_delimiter.length
                  parseEngine sym fuel (.outer (tail.drop shift) convs
                    (pos + first_lazy + opSym.length + shift) result)
              | some (.ok _) => none

/-- parser.parse_tree with the fuel bound that always suffices for the
fuelled engine above. -/
def parse_tree (tree : List Char) (level_type_converters : List Conv) (sym : Sym)
    (pos : Int) : Option (Except PyErr VariableContainer) :=
  parseEngine sym (2 * tree.length + 4) (.tree tree level_type_converters pos)

/-! Projections used to state claims about parse results (VariableContainer
carries nested association lists, so claims are phrased through these
decidable views). -/

def getParsed : Option (Except PyErr VariableContainer) → Option VariableContainer
  | some (.ok t) => some t
  | _ => none

def dictFixedKeys : VariableContainer → Option (Finset Int)
  | .dict f _ => some (f.map Prod.fst).toFinset
  | .set _ => none

def dictVariableKeys : VariableContainer → Option (List Variable)
  | .dict _ v => some (v.map Prod.fst)
  | .set _ => none

def dictLookupFixed : VariableContainer → Int → Option VariableContainer
  | .dict f _, k => alistLookup f k
  | .set _, _ => none

def asValueSet : VariableContainer → Option VariableSet
  | .set s => some s
  | .dict _ _ => none

/-- The pair of sets a VariableSet denotes. -/
def valueSetParts (s : VariableSet) : Finset Int × List Variable :=
  (s.fixed_parts.toFinset, s.variable_parts)


theorem startsWithL_cons_false {a c : Char} (t cs : List Char) (h : a ≠ c) :
    startsWithL (a :: t) (c :: cs) = false := by
  simp [startsWithL, List.take_succ_cons, h]

theorem findIn_none_of_head {s : List Char} (c : Char) (cs : List Char)
    (h : c ∉ s) : findIn s (c :: cs) = none := by
  induction s with
  | nil => rfl
  | cons a t ih =>
    have hac : a ≠ c := fun he => h (he ▸ List.mem_cons_self a t)
    have ht : c ∉ t := fun hm => h (List.mem_cons_of_mem a hm)
    rw [findIn.eq_def,
      if_neg (by rw [startsWithL_cons_false t cs hac]; exact Bool.false_ne_true)]
    show (findIn t (c :: cs)).map (· + 1) = none
    rw [ih ht]
    rfl

theorem findIn_append_head {R mid : List Char} (c : Char) (cs : List Char)
    (hR : c ∉ R) (hm : startsWithL mid (c :: cs) = true) :
    findIn (R ++ mid) (c :: cs) = some R.length := by
  induction R with
  | nil =>
    rw [List.nil_append, findIn.eq_def, if_pos hm]
    rfl
  | cons a t ih =>
    have hac : a ≠ c := fun he => hR (he ▸ List.mem_cons_self a t)
    have ht : c ∉ t := fun hmm => hR (List.mem_cons_of_mem a hmm)
    rw [List.cons_append, findIn.eq_def,
      if_neg (by rw [startsWithL_cons_false (t ++ mid) cs hac]; exact Bool.false_ne_true)]
    show (findIn (t ++ mid) (c :: cs)).map (· + 1) = some (t.length + 1)
    rw [ih ht]
    rfl

theorem pyFind_not_mem {s : List Char} (c : Char) (cs : List Char) (h : c ∉ s) :
    pyFind s (c :: cs) 0 = -1 := by
  rw [pyFind, if_neg (by omega), List.drop_zero, findIn_none_of_head c cs h]

theorem pyFind_append_head {R mid : List Char} (c : Char) (cs : List Char)
    (hR : c ∉ R) (hm : startsWithL mid (c :: cs) = true) :
    pyFind (R ++ mid) (c :: cs) 0 = (R.length : Int) := by
  rw [pyFind, if_neg (by omega), List.drop_zero, findIn_append_head c cs hR hm]
  norm_num

theorem valid_comp_self (a : Int) : valid_comp a a = 0 := by
  rw [valid_comp, if_pos rfl]

-- the inner scan on a token-free body with pending strict opener: one step to the error
theorem innerScan_strict_err (B : List Char) (basePos : Int) (f : Nat)
    (hc : ':' ∉ B) (hcl : ']' ∉ B) :
    innerScan defaultSym B basePos (f + 1) 0 [[':', '[']]
      = some (.error (.parseError (basePos + B.length)
          (.expectedClosers [']']))) := by
  rw [innerScan]
  rw [show defaultSym.level_opener = [':', '['] from rfl,
    show defaultSym.lazy_opener = [':'] from rfl,
    show defaultSym.level_closer = [']'] from rfl]
  rw [pyFind_not_mem ':' ['['] hc, pyFind_not_mem ':' [] hc, pyFind_not_mem ']' [] hcl]
  rfl

theorem outer_strict_err (R B : List Char) (convs : List Conv) (pos : Int)
    (acc : VariableContainer) (f : Nat)
    (hR : ':' ∉ R) (hc : ':' ∉ B) (hcl : ']' ∉ B) :
    parseEngine defaultSym (f + 1) (.outer (R ++ ':' :: '[' :: B) convs pos acc)
      = some (.error (.parseError (pos + B.length) (.expectedClosers [']']))) := by
  have hopen : pyFind (R ++ ':' :: '[' :: B) [':', '['] 0 = (R.length : Int) :=
    pyFind_append_head ':' ['['] hR rfl
  have hlazy : pyFind (R ++ ':' :: '[' :: B) [':'] 0 = (R.length : Int) :=
    pyFind_append_head ':' [] hR rfl
  have htake : (R ++ ':' :: '[' :: B).take R.length = R := List.take_left R _
  have hdrop : (R ++ ':' :: '[' :: B).drop (R.length + 2) = B := by
    rw [show R ++ ':' :: '[' :: B = (R ++ [':', '[']) ++ B from by simp]
    rw [show R.length + 2 = (R ++ [':', '[']).length from by simp]
    exact List.drop_left _ _
  rw [parseEngine]
  rw [show defaultSym.level_opener = [':', '['] from rfl,
    show defaultSym.lazy_opener = [':'] from rfl]
  rw [hopen, hlazy, valid_comp_self]
  rw [if_neg (show ¬((0 : Int) < 0) from by decide)]
  rw [if_pos (show (R.length : Int) > -1 from by omega)]
  simp only [if_neg (show ¬((0 : Int) < 0) from by decide)]
  simp only [Int.toNat_natCast, show ([':', '['] : List Char).length = 2 from rfl]
  rw [hdrop, htake]
  rw [show B.length + 2 = (B.length + 1) + 1 from rfl]
  rw [innerScan_strict_err B pos (B.length + 1) hc hcl]

-- C6 infrastructure
theorem valid_comp_neg_one_nat (n : Nat) : valid_comp (-1) (n : Int) = 1 := by
  rw [valid_comp, if_neg (by omega), if_neg (by omega)]

theorem innerScan_strict_closed (B : List Char) (basePos : Int)
    (hc : ':' ∉ B) (hcl : ']' ∉ B) :
    innerScan defaultSym (B ++ [']']) basePos ((B ++ [']']).length + 2) 0 [[':', '[']]
      = some (.ok (B.length, true)) := by
  have hT : ':' ∉ B ++ [']'] := by
    intro hmem
    rcases List.mem_append.mp hmem with h | h
    · exact hc h
    · simp at h
  rw [show (B ++ [']']).length + 2 = ((B ++ [']']).length + 1) + 1 from rfl]
  rw [innerScan]
  rw [show defaultSym.level_opener = [':', '['] from rfl,
    show defaultSym.lazy_opener = [':'] from rfl,
    show defaultSym.level_closer = [']'] from rfl]
  rw [pyFind_not_mem ':' ['['] hT, pyFind_not_mem ':' [] hT,
    @pyFind_append_head B [']'] ']' [] hcl rfl]
  have hB1 : ¬((B.length : Int) = -1) := by omega
  have hdone : ((B.length : Int) = -1 ∨
      (B.length : Int) + (([']'] : List Char).length : Int) = (((B ++ [']']).length : Nat) : Int)) := by
    right
    simp
  simp only [show valid_comp (-1) (-1) = 0 from by decide]
  simp only [if_neg (show ¬((0 : Int) < 0) from by decide)]
  simp only [valid_comp_neg_one_nat]
  simp only [if_neg (show ¬((1 : Int) < 0) from by decide)]
  simp only [if_neg hB1, if_pos hdone]
  rw [show dropLazy defaultSym [[':', '[']] = [[':', '[']] from rfl]
  show (if ((B.length : Int) = -1 ∨
        (B.length : Int) + (([']'] : List Char).length : Int) = (((B ++ [']']).length : Nat) : Int)) ∧
        dropLazy defaultSym [] ≠ [] then
      some (Except.error (PyErr.parseError (basePos + (((B ++ [']']).length : Nat) : Int))
        (PMsg.expectedClosers [']'])))
    else if dropLazy defaultSym [] = [] then
      some (Except.ok ((B.length : Int).toNat, decide ((B.length : Int) = -1 ∨
        (B.length : Int) + (([']'] : List Char).length : Int) = (((B ++ [']']).length : Nat) : Int))))
    else innerScan defaultSym (B ++ [']']) basePos ((B ++ [']']).length + 1)
      ((B.length : Int).toNat + ([']'] : List Char).length) (dropLazy defaultSym []))
    = some (Except.ok (B.length, true))
  rw [show dropLazy defaultSym ([] : List (List Char)) = [] from rfl]
  rw [if_neg (show ¬((((B.length : Int) = -1 ∨
      (B.length : Int) + (([']'] : List Char).length : Int) = (((B ++ [']']).length : Nat) : Int))) ∧
      ([] : List (List Char)) ≠ []) from by simp)]
  rw [if_pos (show ([] : List (List Char)) = [] from rfl)]
  rw [Int.toNat_natCast, decide_eq_true hdone]

theorem convert_shift_cases (value : List Char) (c : Conv) (iS rS aS : List Char) (p d : Int) :
    (∃ q m, convert value c iS rS aS p = .error (.parseError q m)
      ∧ convert value c iS rS aS (p + d) = .error (.parseError (q + d) m))
    ∨ (convert value c iS rS aS p = .error .valueError
      ∧ convert value c iS rS aS (p + d) = .error .valueError)
    ∨ (∃ e1 e2, convert value c iS rS aS p = .ok e1 ∧ convert value c iS rS aS (p + d) = .ok e2) := by
  by_cases h1 : startsWithL value iS = true
  · by_cases h2 : startsWithL value (iS ++ iS) = true
    · right; right
      refine ⟨.size, .size, ?_, ?_⟩ <;> rw [convert, if_pos h1, if_pos h2]
    · cases hpi : pyIntOf (value.drop iS.length) with
      | some i =>
          right; right
          refine ⟨.idx i, .idx i, ?_, ?_⟩ <;> rw [convert, if_pos h1, if_neg h2, hpi]
      | none =>
          right; left
          constructor <;> rw [convert, if_pos h1, if_neg h2, hpi]
  · by_cases h3 : startsWithL value rS = true
    · by_cases h4 : value = rS
      · right; right
        refine ⟨.random (startsWithL value (rS ++ rS)) p,
          .random (startsWithL value (rS ++ rS)) (p + d), ?_, ?_⟩ <;>
          (rw [convert, if_neg h1, if_pos h3]; simp only [if_pos h4])
      · cases hpn : pyIntOf (value.drop rS.length) with
        | some n =>
            right; right
            refine ⟨.sample n (startsWithL value (rS ++ rS)) p,
              .sample n (startsWithL value (rS ++ rS)) (p + d), ?_, ?_⟩ <;>
              (rw [convert, if_neg h1, if_pos h3]; simp only [if_neg h4]; rw [hpn])
        | none =>
            right; left
            constructor <;>
              (rw [convert, if_neg h1, if_pos h3]; simp only [if_neg h4]; rw [hpn])
    · by_cases h5 : value = aS
      · right; right
        refine ⟨.all, .all, ?_, ?_⟩ <;> rw [convert, if_neg h1, if_neg h3, if_pos h5]
      · cases hcv : c value with
        | some x =>
            right; right
            refine ⟨.lit x, .lit x, ?_, ?_⟩ <;>
              rw [convert, if_neg h1, if_neg h3, if_neg h5, hcv]
        | none =>
            left
            refine ⟨p, .cannotConvert value, ?_, ?_⟩ <;>
              rw [convert, if_neg h1, if_neg h3, if_neg h5, hcv]

theorem unravelSegs_shift (c : Conv) (sym : Sym) :
    ∀ (segs : List (List Char)) (p d : Int) (f1 : List Int) (v1 : List Variable)
      (f2 : List Int) (v2 : List Variable) (q : Int) (m : PMsg),
      unravelSegs sym c segs p f1 v1 = .error (.parseError q m) →
      unravelSegs sym c segs (p + d) f2 v2 = .error (.parseError (q + d) m) := by
  intro segs
  induction segs with
  | nil =>
    intro p d f1 v1 f2 v2 q m h
    simp [unravelSegs] at h
  | cons seg rest ih =>
    intro p d f1 v1 f2 v2 q m h
    by_cases hr : 0 ≤ pyFind seg sym.range_delimiter 0
    · rw [unravelSegs, if_pos hr] at h
      rw [unravelSegs, if_pos hr]
      cases hsp : pySplit seg sym.range_delimiter with
      | nil =>
        rw [hsp] at h
        have h2 : (Except.error PyErr.valueError : Except PyErr VariableSet)
            = .error (.parseError q m) := h
        simp at h2
      | cons a t1 =>
        cases t1 with
        | nil =>
          rw [hsp] at h
          have h2 : (Except.error PyErr.valueError : Except PyErr VariableSet)
              = .error (.parseError q m) := h
          simp at h2
        | cons b t2 =>
          cases t2 with
          | cons x t3 =>
            rw [hsp] at h
            have h2 : (Except.error PyErr.valueError : Except PyErr VariableSet)
                = .error (.parseError q m) := h
            simp at h2
          | nil =>
            rw [hsp] at h
            have h2 : (do
                let first ← convert a c sym.index_specifier sym.random_specifier
                  sym.all_specifier p
                let last ← convert b c sym.index_specifier sym.random_specifier
                  sym.all_specifier
                  (p + (a.length : Int) + (sym.range_delimiter.length : Int))
                match first, last with
                  | .lit x, .lit y =>
                      unravelSegs sym c rest (p + (seg.length : Int) + (sym.listing_delimiter.length : Int))
                        ((pyRangeIncl x y).foldl setAddI f1) v1
                  | _, _ =>
                      unravelSegs sym c rest (p + (seg.length : Int) + (sym.listing_delimiter.length : Int))
                        f1 (setAdd v1 (Variable.range first last)))
                = .error (.parseError q m) := h
            show (do
                let first ← convert a c sym.index_specifier sym.random_specifier
                  sym.all_specifier (p + d)
                let last ← convert b c sym.index_specifier sym.random_specifier
                  sym.all_specifier
                  (p + d + (a.length : Int) + (sym.range_delimiter.length : Int))
                match first, last with
                  | .lit x, .lit y =>
                      unravelSegs sym c rest (p + d + (seg.length : Int) + (sym.listing_delimiter.length : Int))
                        ((pyRangeIncl x y).foldl setAddI f2) v2
                  | _, _ =>
                      unravelSegs sym c rest (p + d + (seg.length : Int) + (sym.listing_delimiter.length : Int))
                        f2 (setAdd v2 (Variable.range first last)))
                = .error (.parseError (q + d) m)
            rcases convert_shift_cases a c sym.index_specifier sym.random_specifier
                sym.all_specifier p d with
              ⟨q1, m1, ha1, ha2⟩ | ⟨ha1, ha2⟩ | ⟨e1, e2, ha1, ha2⟩
            · rw [ha1] at h2
              have h3 : (Except.error (PyErr.parseError q1 m1) : Except PyErr VariableSet)
                  = .error (.parseError q m) := h2
              injection h3 with h4
              injection h4 with hq hm
              subst hq
              subst hm
              rw [ha2]
              rfl
            · rw [ha1] at h2
              have h3 : (Except.error PyErr.valueError : Except PyErr VariableSet)
                  = .error (.parseError q m) := h2
              simp at h3
            · rw [ha1] at h2
              rw [ha2]
              rw [show p + d + (a.length : Int) + (sym.range_delimiter.length : Int)
                = (p + (a.length : Int) + (sym.range_delimiter.length : Int)) + d
                from by ring]
              rcases convert_shift_cases b c sym.index_specifier sym.random_specifier
                  sym.all_specifier
                  (p + (a.length : Int) + (sym.range_delimiter.length : Int)) d with
                ⟨q2, m2, hb1, hb2⟩ | ⟨hb1, hb2⟩ | ⟨l1, l2, hb1, hb2⟩
              · rw [hb1] at h2
                have h4 : (Except.error (PyErr.parseError q2 m2) : Except PyErr VariableSet)
                    = .error (.parseError q m) := h2
                injection h4 with h5
                injection h5 with hq hm
                subst hq
                subst hm
                rw [hb2]
                rfl
              · rw [hb1] at h2
                have h4 : (Except.error PyErr.valueError : Except PyErr VariableSet)
                    = .error (.parseError q m) := h2
                simp at h4
              · rw [hb1] at h2
                rw [hb2]
                have hex : ∃ F V, unravelSegs sym c rest
                    (p + (seg.length : Int) + (sym.listing_delimiter.length : Int)) F V
                    = .error (.parseError q m) := by
                  cases e1 <;> cases l1 <;> exact ⟨_, _, h2⟩
                obtain ⟨F, V, hFV⟩ := hex
                rw [show p + d + (seg.length : Int) + (sym.listing_delimiter.length : Int)
                  = (p + (seg.length : Int) + (sym.listing_delimiter.length : Int)) + d
                  from by ring]
                cases e2 <;> cases l2 <;> exact ih _ _ F V _ _ _ _ hFV
    · rw [unravelSegs, if_neg hr] at h
      rw [unravelSegs, if_neg hr]
      have h2 : (do
          let element ← convert seg c sym.index_specifier sym.random_specifier
            sym.all_specifier p
          match element with
            | .lit x => unravelSegs sym c rest (p + (seg.length : Int) + (sym.listing_delimiter.length : Int)) (setAddI f1 x) v1
            | .idx i => unravelSegs sym c rest (p + (seg.length : Int) + (sym.listing_delimiter.length : Int)) f1 (setAdd v1 (Variable.index i))
            | .size => unravelSegs sym c rest (p + (seg.length : Int) + (sym.listing_delimiter.length : Int)) f1 (setAdd v1 Variable.size)
            | .const cc => unravelSegs sym c rest (p + (seg.length : Int) + (sym.listing_delimiter.length : Int)) f1 (setAdd v1 (Variable.const cc))
            | .all => unravelSegs sym c rest (p + (seg.length : Int) + (sym.listing_delimiter.length : Int)) f1 (setAdd v1 Variable.all)
            | .sample n ex id =>
                unravelSegs sym c rest (p + (seg.length : Int) + (sym.listing_delimiter.length : Int)) f1 (setAdd v1 (Variable.sample n ex id))
            | .random ex id =>
                unravelSegs sym c rest (p + (seg.length : Int) + (sym.listing_delimiter.length : Int)) f1 (setAdd v1 (Variable.random ex id)))
          = .error (.parseError q m) := h
      show (do
          let element ← convert seg c sym.index_specifier sym.random_specifier
            sym.all_specifier (p + d)
          match element with
            | .lit x => unravelSegs sym c rest (p + d + (seg.length : Int) + (sym.listing_delimiter.length : Int)) (setAddI f2 x) v2
            | .idx i => unravelSegs sym c rest (p + d + (seg.length : Int) + (sym.listing_delimiter.length : Int)) f2 (setAdd v2 (Variable.index i))
            | .size => unravelSegs sym c rest (p + d + (seg.length : Int) + (sym.listing_delimiter.length : Int)) f2 (setAdd v2 Variable.size)
            | .const cc => unravelSegs sym c rest (p + d + (seg.length : Int) + (sym.listing_delimiter.length : Int)) f2 (setAdd v2 (Variable.const cc))
            | .all => unravelSegs sym c rest (p + d + (seg.length : Int) + (sym.listing_delimiter.length : Int)) f2 (setAdd v2 Variable.all)
            | .sample n ex id =>
                unravelSegs sym c rest (p + d + (seg.length : Int) + (sym.listing_delimiter.length : Int)) f2 (setAdd v2 (Variable.sample n ex id))
            | .random ex id =>
                unravelSegs sym c rest (p + d + (seg.length : Int) + (sym.listing_delimiter.length : Int)) f2 (setAdd v2 (Variable.random ex id)))
          = .error (.parseError (q + d) m)
      rcases convert_shift_cases seg c sym.index_specifier sym.random_specifier
          sym.all_specifier p d with
        ⟨q1, m1, ha1, ha2⟩ | ⟨ha1, ha2⟩ | ⟨e1, e2, ha1, ha2⟩
      · rw [ha1] at h2
        have h3 : (Except.error (PyErr.parseError q1 m1) : Except PyErr VariableSet)
            = .error (.parseError q m) := h2
        injection h3 with h4
        injection h4 with hq hm
        subst hq
        subst hm
        rw [ha2]
        rfl
      · rw [ha1] at h2
        have h3 : (Except.error PyErr.valueError : Except PyErr VariableSet)
            = .error (.parseError q m) := h2
        simp at h3
      · rw [ha1] at h2
        rw [ha2]
        have hex : ∃ F V, unravelSegs sym c rest
            (p + (seg.length : Int) + (sym.listing_delimiter.length : Int)) F V
            = .error (.parseError q m) := by
          cases e1 <;> exact ⟨_, _, h2⟩
        obtain ⟨F, V, hFV⟩ := hex
        rw [show p + d + (seg.length : Int) + (sym.listing_delimiter.length : Int)
          = (p + (seg.length : Int) + (sym.listing_delimiter.length : Int)) + d
          from by ring]
        cases e2 <;> exact ih _ _ F V _ _ _ _ hFV

theorem unravel_shift (listing : List Char) (c : Conv) (sym : Sym) (p q : Int) (m : PMsg)
    (h : unravel listing c sym 0 = .error (.parseError q m)) :
    unravel listing c sym p = .error (.parseError (q + p) m) := by
  rw [unravel] at h ⊢
  by_cases hl : listing.length > 0
  · rw [if_pos hl] at h ⊢
    have hs := unravelSegs_shift c sym (pySplit listing sym.listing_delimiter)
      0 p [] [] [] [] q m h
    rw [zero_add] at hs
    exact hs
  · rw [if_neg hl] at h
    simp at h

/-- C6: for every two-level tree whose second listing fails to resolve
(any ParseError at relative position q inside the body), the error
surfaced by parse_tree carries the absolute offset: roots length, plus
the two-character opener, plus q.  With a malformed token in the second
listing, q is the token's offset inside the body, so the reported
position is the token's true absolute offset in the original string. -/
theorem c6_absolute_error_position (R B : List Char) (c1 c2 : Conv) (q : Int) (m : PMsg)
    (hR : ':' ∉ R) (hc : ':' ∉ B) (hcl : ']' ∉ B)
    (hfail : unravel B c2 defaultSym 0 = .error (.parseError q m)) :
    parse_tree (R ++ ':' :: '[' :: (B ++ [']'])) [c1, c2] defaultSym 0
      = some (.error (.parseError ((R.length : Int) + 2 + q) m)) := by
  have hopen : pyFind (R ++ ':' :: '[' :: (B ++ [']'])) [':', '['] 0 = (R.length : Int) :=
    pyFind_append_head ':' ['['] hR rfl
  have hlazy : pyFind (R ++ ':' :: '[' :: (B ++ [']'])) [':'] 0 = (R.length : Int) :=
    pyFind_append_head ':' [] hR rfl
  have htake : (R ++ ':' :: '[' :: (B ++ [']'])).take R.length = R := List.take_left R _
  have hdrop : (R ++ ':' :: '[' :: (B ++ [']'])).drop (R.length + 2) = B ++ [']'] := by
    rw [show R ++ ':' :: '[' :: (B ++ [']']) = (R ++ [':', '[']) ++ (B ++ [']']) from by simp]
    rw [show R.length + 2 = (R ++ [':', '[']).length from by simp]
    exact List.drop_left _ _
  rw [parse_tree]
  rw [show 2 * (R ++ ':' :: '[' :: (B ++ [']'])).length + 4
    = (2 * (R ++ ':' :: '[' :: (B ++ [']'])).length + 3) + 1 from rfl]
  rw [parseEngine]
  rw [if_neg (show ¬(([c1, c2] : List Conv).length = 1) from by simp)]
  rw [show 2 * (R ++ ':' :: '[' :: (B ++ [']'])).length + 3
    = (2 * (R ++ ':' :: '[' :: (B ++ [']'])).length + 2) + 1 from rfl]
  rw [parseEngine]
  rw [show defaultSym.level_opener = [':', '['] from rfl,
    show defaultSym.lazy_opener = [':'] from rfl]
  rw [hopen, hlazy, valid_comp_self]
  rw [if_neg (show ¬((0 : Int) < 0) from by decide)]
  rw [if_pos (show (R.length : Int) > -1 from by omega)]
  simp only []
  simp only [if_neg (show ¬((0 : Int) < 0) from by decide)]
  simp only [Int.toNat_natCast, show ([':', '['] : List Char).length = 2 from rfl]
  rw [hdrop, htake]
  rw [innerScan_strict_closed B 0 hc hcl]
  show (match parseEngine defaultSym (2 * (R ++ ':' :: '[' :: (B ++ [']'])).length + 2)
        (PCall.tree (List.take B.length (B ++ [']'])) ([c1, c2] : List Conv).tail
          (0 + (R.length : Int) + ((2 : Nat) : Int))) with
      | none => none
      | some (Except.error e) => some (Except.error e)
      | some (Except.ok sub_trees_processed) =>
        match unravel R c1 defaultSym 0 with
        | Except.error e => some (Except.error e)
        | Except.ok roots_unraveled =>
          match mergeEngine (2 * (R ++ ':' :: '[' :: (B ++ [']'])).length + 2 + 1)
              (MCall.containers (VariableContainer.dict [] [])
                (VariableContainer.dict
                  (List.map (fun k => (k, sub_trees_processed)) roots_unraveled.fixed_parts)
                  (List.map (fun k => (k, sub_trees_processed))
                    roots_unraveled.variable_parts))) with
            | none => none
            | some (Except.error e) => some (Except.error e)
            | some (Except.ok (MRes.container result)) =>
              if true = true then some (Except.ok result)
              else
                parseEngine defaultSym (2 * (R ++ ':' :: '[' :: (B ++ [']'])).length + 2)
                  (PCall.outer
                    (List.drop (B.length + defaultSym.level_closer.length
                      + defaultSym.level_delimiter.length) (B ++ [']']))
                    [c1, c2]
                    (0 + (R.length : Int) + ((2 : Nat) : Int)
                      + ((B.length + defaultSym.level_closer.length
                        + defaultSym.level_delimiter.length : Nat) : Int))
                    result)
            | some (Except.ok a) => none)
    = some (Except.error (PyErr.parseError ((R.length : Int) + 2 + q) m))
  rw [List.take_left B [']']]
  rw [show ([c1, c2] : List Conv).tail = [c2] from rfl]
  rw [show 2 * (R ++ ':' :: '[' :: (B ++ [']'])).length + 2
    = (2 * (R ++ ':' :: '[' :: (B ++ [']'])).length + 1) + 1 from rfl]
  rw [parseEngine]
  rw [if_pos (show ([c2] : List Conv).length = 1 from rfl)]
  rw [show ([c2] : List Conv).getD 0 intConverter = c2 from rfl]
  rw [unravel_shift B c2 defaultSym (0 + (R.length : Int) + ((2 : Nat) : Int)) q m hfail]
  rw [show q + (0 + (R.length : Int) + ((2 : Nat) : Int)) = (R.length : Int) + 2 + q
    from by push_cast; ring]
  rfl

/-- C5: reaching end of input with a strict opener unclosed is a parse
error naming the missing closers, but its reported position is the base
position plus the length of the text after the first opener (the scan
started past the roots listing and the opener), which is strictly less
than the end-of-input offset of the original string; the spec's claimed
end-of-input position is refuted by `c5_end_position_counterexample`. -/
theorem c5_missing_closer_position (R B : List Char) (c1 c2 : Conv) (cs : List Conv)
    (hR : ':' ∉ R) (hc : ':' ∉ B) (hcl : ']' ∉ B) :
    parse_tree (R ++ ':' :: '[' :: B) (c1 :: c2 :: cs) defaultSym 0
      = some (.error (.parseError (B.length : Int) (.expectedClosers [']'])))
    ∧ (B.length : Int) < ((R ++ ':' :: '[' :: B).length : Int) := by
  constructor
  · rw [parse_tree]
    rw [show 2 * (R ++ ':' :: '[' :: B).length + 4
      = (2 * (R ++ ':' :: '[' :: B).length + 3) + 1 from rfl]
    rw [parseEngine]
    rw [if_neg (show ¬((c1 :: c2 :: cs).length = 1) from by simp)]
    rw [show 2 * (R ++ ':' :: '[' :: B).length + 3
      = (2 * (R ++ ':' :: '[' :: B).length + 2) + 1 from rfl]
    rw [outer_strict_err R B (c1 :: c2 :: cs) 0 (.dict [] [])
      (2 * (R ++ ':' :: '[' :: B).length + 2) hR hc hcl]
    rw [zero_add]
  · simp [List.length_append]
    omega

/-- Witness for `c5_missing_closer_position` at "0:[1". -/
theorem c5_missing_closer_position_witness :
    parse_tree (['0'] ++ ':' :: '[' :: ['1']) [intConverter, intConverter] defaultSym 0
      = some (.error (.parseError ((['1'] : List Char).length : Int) (.expectedClosers [']'])))
    ∧ ((['1'] : List Char).length : Int) < (((['0'] ++ ':' :: '[' :: ['1'] : List Char)).length : Int) :=
  c5_missing_closer_position ['0'] ['1'] intConverter intConverter [] (by decide) (by decide) (by decide)

/-- C5 counterexample: parsing "0:[1" (strict opener never closed) reports
the parse error at position 1, not at the end-of-input offset 4. -/
theorem c5_end_position_counterexample :
    parse_tree "0:[1".toList [intConverter, intConverter] defaultSym 0
      = some (.error (.parseError 1 (.expectedClosers [']'])))
    ∧ ("0:[1".toList.length : Int) = 4 ∧ (1 : Int) ≠ 4 := by
  refine ⟨by rfl, by decide, by decide⟩

/-- Witness for `c6_absolute_error_position` at "0,1:[2,x]": the malformed
token "x" sits at absolute offset 7. -/
theorem c6_absolute_error_position_witness :
    parse_tree ("0,1".toList ++ ':' :: '[' :: ("2,x".toList ++ [']']))
      [intConverter, intConverter] defaultSym 0
      = some (.error (.parseError (("0,1".toList.length : Int) + 2 + 2)
          (.cannotConvert ['x']))) :=
  c6_absolute_error_position "0,1".toList "2,x".toList intConverter intConverter 2 (.cannotConvert ['x'])
    (by decide) (by decide) (by decide) (by decide)

/-! # Claims -/

/-- C1: with default markers the classifier maps "##" to the size
placeholder, "#2" to the index-2 placeholder and "?" to the
non-excluding random placeholder, with the prefix checks in priority
order index, random, all, literal; but on "??3" the code strips only one
copy of the random marker and feeds "?3" to `int(...)`, raising a plain
`ValueError` instead of returning SamplePlaceholder(3, exclude_original),
contradicting the classifier's own doc comment ("If it is repeated twice,
then this denotes sampling without the original value"). -/
theorem c1_classifier_doubled_random_marker_bug :
    convert "##".toList intConverter ['#'] ['?'] ['*'] 0 = .ok .size
    ∧ convert "#2".toList intConverter ['#'] ['?'] ['*'] 0 = .ok (.idx 2)
    ∧ convert "?".toList intConverter ['#'] ['?'] ['*'] 0 = .ok (.random false 0)
    ∧ convert "?3".toList intConverter ['#'] ['?'] ['*'] 0 = .ok (.sample 3 false 0)
    ∧ convert "??3".toList intConverter ['#'] ['?'] ['*'] 0 = .error .valueError := by
  decide

/-- C2 counterexample: a RangePlaceholder whose first endpoint is an
AllPlaceholder over the three-element space `[1,2,3]` resolves
successfully (popping an arbitrary element of the endpoint's resolved
set, here its canonical first), rather than failing with a resolution
error as the claim states. -/
theorem c2_range_endpoint_counterexample :
    Variable.evaluate (fun _ => []) (.range .all (.lit 5)) [1, 2, 3] none
      = .ok [1, 2, 3, 4, 5]
    ∧ ∀ m : RMsg, Variable.evaluate (fun _ => []) (.range .all (.lit 5)) [1, 2, 3] none
      ≠ .error (.resolveError m) := by
  refine ⟨by decide, fun m h => ?_⟩
  rw [show Variable.evaluate (fun _ => []) (.range .all (.lit 5)) [1, 2, 3] none
      = .ok [1, 2, 3, 4, 5] from by decide] at h
  exact Except.noConfusion h

/-- `first.evaluate(container).pop()`: whenever the endpoint's evaluated
set is non-empty, popping yields its canonical first element — no
one-element check is performed. -/
theorem endpointPop_eq_headI (draw : Nat → List Int) (e : Endpoint)
    (container : List Int) (l : List Int)
    (h : endpointSetList draw e container = .ok l) (hne : l ≠ []) :
    endpointPop draw e container = .ok l.headI := by
  cases e
  case lit v =>
    simp only [endpointSetList] at h
    obtain rfl : [v] = l := Except.ok.inj h
    rfl
  all_goals
    simp only [endpointPop, h]
    cases l with
    | nil => exact absurd rfl hne
    | cons a t => rfl

/-- C2 amended: resolving a RangePlaceholder endpoint that is a
placeholder does not require the endpoint to yield exactly one value;
whenever each endpoint's resolved set is non-empty, resolution succeeds,
silently using one (the canonical first) of the resolved values as that
endpoint. -/
theorem c2_range_endpoint_amended (draw : Nat → List Int) (first last : Endpoint)
    (container : List Int) (ov : Option Int) (l1 l2 : List Int)
    (h1 : endpointSetList draw first container = .ok l1) (hne1 : l1 ≠ [])
    (h2 : endpointSetList draw last container = .ok l2) (hne2 : l2 ≠ []) :
    Variable.evaluate draw (.range first last) container ov
      = .ok (pyRangeIncl l1.headI l2.headI) := by
  simp only [Variable.evaluate, endpointPop_eq_headI draw first container l1 h1 hne1,
    endpointPop_eq_headI draw last container l2 h2 hne2, Except.bind]
  rfl

/-- Witness for the amended C2 theorem at the counterexample's input. -/
theorem c2_range_endpoint_amended_witness :
    Variable.evaluate (fun _ => []) (.range .all (.lit 5)) [1, 2, 3] none
      = .ok (pyRangeIncl ([1, 2, 3] : List Int).headI ([5] : List Int).headI) :=
  c2_range_endpoint_amended (fun _ => []) .all (.lit 5) [1, 2, 3] none [1, 2, 3] [5]
    (by decide) (by decide) (by decide) (by decide)

/-- C4: with default symbols and two integer converters,
`parse_tree "0,1:[2,3]"` yields a keyed-tree whose fixed key set is
exactly {0, 1}, with no variable keys, each key mapped to the value-set
{2, 3}; and the lazy form `parse_tree "0,1:2,3"` returns the same
structure. -/
theorem c4_two_level_tree_example :
    (getParsed (parse_tree "0,1:[2,3]".toList [intConverter, intConverter] defaultSym 0)).bind
      dictFixedKeys = some {0, 1}
    ∧ (getParsed (parse_tree "0,1:[2,3]".toList [intConverter, intConverter] defaultSym 0)).bind
      dictVariableKeys = some []
    ∧ (((getParsed (parse_tree "0,1:[2,3]".toList [intConverter, intConverter] defaultSym 0)).bind
      (dictLookupFixed · 0)).bind asValueSet).map valueSetParts = some ({2, 3}, [])
    ∧ (((getParsed (parse_tree "0,1:[2,3]".toList [intConverter, intConverter] defaultSym 0)).bind
      (dictLookupFixed · 1)).bind asValueSet).map valueSetParts = some ({2, 3}, [])
    ∧ parse_tree "0,1:[2,3]".toList [intConverter, intConverter] defaultSym 0
      = parse_tree "0,1:2,3".toList [intConverter, intConverter] defaultSym 0 := by
  refine ⟨by decide, by decide, by decide, by decide, rfl⟩

/-- C10: a token beginning with the index marker whose remainder is not a
decimal integer makes the classifier raise the plain integer-conversion
`ValueError` (no character position attached); and every positioned
`ParseError` the classifier can raise comes from the caller-supplied
converter on a token matching no marker, and carries exactly the
classifier's supplied position and that token. -/
theorem c10_classifier_plain_valueerror :
    (∀ pos : Int, convert "#x".toList intConverter ['#'] ['?'] ['*'] pos
      = .error .valueError)
    ∧ ∀ (value : List Char) (conv : Conv) (pos q : Int) (m : PMsg),
        convert value conv ['#'] ['?'] ['*'] pos = .error (.parseError q m) →
        startsWithL value ['#'] = false ∧ startsWithL value ['?'] = false
        ∧ value ≠ ['*'] ∧ q = pos ∧ m = .cannotConvert value := by
  constructor
  · intro pos
    rfl
  · intro value conv pos q m h
    unfold convert at h
    split at h
    · split at h
      · exact absurd h (by simp)
      · split at h <;> exact absurd h (by simp)
    · split at h
      · split at h
        · exact absurd h (by simp)
        · split at h <;> exact absurd h (by simp)
      · split at h
        · exact absurd h (by simp)
        · split at h
          · exact absurd h (by simp)
          · rename_i hidx hrand hall _ _
            refine ⟨by simpa using hidx, by simpa using hrand, hall, ?_, ?_⟩
            · injection h with h'
              injection h'
              omega
            · injection h with h'
              injection h' with _ hm
              exact hm.symm

/-- A sub-permutation of a duplicate-free list is duplicate-free. -/
theorem subperm_nodup {l c : List Int} (h : List.Subperm l c) (hc : c.Nodup) :
    l.Nodup := by
  obtain ⟨m, hp, hs⟩ := h
  exact hp.nodup_iff.mp (hs.nodup hc)

/-- Unfolding of `sampleEvaluate` without exclusion. -/
theorem sampleEvaluate_no_exclude (draw : Nat → List Int) (n : Int) (c : List Int)
    (ov : Option Int) :
    sampleEvaluate draw n false c ov
      = if n > (c.length : Int) then .error (.resolveError (.cannotDraw n c.length))
        else if n < 0 then .error .valueError
        else .ok (draw n.toNat).dedup := rfl

/-- Unfolding of `sampleEvaluate` with exclusion and an original value. -/
theorem sampleEvaluate_exclude_some (draw : Nat → List Int) (n : Int) (c : List Int)
    (ov : Int) :
    sampleEvaluate draw n true c (some ov)
      = if n + 1 > (c.length : Int) then
          .error (.resolveError (.cannotDrawExcluding n c.length))
        else if n + 1 < 0 then .error .valueError
        else if ov ∈ (draw (n + 1).toNat).dedup then
          .ok ((draw (n + 1).toNat).dedup.erase ov)
        else
          match (draw (n + 1).toNat).dedup with
          | [] => .error .keyError
          | _ :: t => .ok t := rfl

/-- C3: the SamplePlaceholder resolution contract.  Over any value space
(a duplicate-free sequence) and any draw oracle behaving as
`random.sample` does: without exclusion, a space of size `≥ n` yields
exactly `n` distinct elements of the space and a smaller space is a
resolution error; with exclusion and an original value, a space of size
`≥ n + 1` yields exactly `n` distinct elements never containing the
original and a smaller space is a resolution error; exclusion without an
original value is a resolution error. -/
theorem c3_sample_evaluate_contract :
    (∀ (n : Nat) (c : List Int) (draw : Nat → List Int) (id : Int),
      c.Nodup → IsSample c n (draw n) → n ≤ c.length →
      ∃ r, Variable.evaluate draw (.sample (n : Int) false id) c none = .ok r
        ∧ r.length = n ∧ r.Nodup ∧ ∀ x ∈ r, x ∈ c)
    ∧ (∀ (n : Nat) (c : List Int) (draw : Nat → List Int) (id : Int) (ov : Option Int),
      c.length < n →
      Variable.evaluate draw (.sample (n : Int) false id) c ov
        = .error (.resolveError (.cannotDraw (n : Int) c.length)))
    ∧ (∀ (n : Nat) (c : List Int) (draw : Nat → List Int) (id : Int) (ov : Int),
      c.Nodup → IsSample c (n + 1) (draw (n + 1)) → n + 1 ≤ c.length →
      ∃ r, Variable.evaluate draw (.sample (n : Int) true id) c (some ov) = .ok r
        ∧ r.length = n ∧ ov ∉ r ∧ r.Nodup ∧ ∀ x ∈ r, x ∈ c)
    ∧ (∀ (n : Nat) (c : List Int) (draw : Nat → List Int) (id : Int) (ov : Int),
      c.length < n + 1 →
      Variable.evaluate draw (.sample (n : Int) true id) c (some ov)
        = .error (.resolveError (.cannotDrawExcluding (n : Int) c.length)))
    ∧ (∀ (n : Nat) (c : List Int) (draw : Nat → List Int) (id : Int),
      Variable.evaluate draw (.sample (n : Int) true id) c none
        = .error (.resolveError .noOriginal)) := by
  refine ⟨?_, ?_, ?_, ?_, ?_⟩
  · intro n c draw id hc hs hn
    obtain ⟨hlen, hsub⟩ := hs
    have hnd : (draw n).Nodup := subperm_nodup hsub hc
    have hded : (draw n).dedup = draw n := List.dedup_eq_self.mpr hnd
    have e1 : Variable.evaluate draw (.sample (n : Int) false id) c none
        = .ok (draw ((n : Int)).toNat).dedup := by
      rw [show Variable.evaluate draw (.sample (n : Int) false id) c none
          = sampleEvaluate draw (n : Int) false c none from rfl, sampleEvaluate_no_exclude,
        if_neg (by omega : ¬((n : Int) > (c.length : Int))),
        if_neg (by omega : ¬((n : Int) < 0))]
    rw [show ((n : Int)).toNat = n by omega] at e1
    exact ⟨(draw n).dedup, e1, by rw [hded]; exact hlen, by rw [hded]; exact hnd,
      by rw [hded]; exact fun x hx => hsub.subset hx⟩
  · intro n c draw id ov hlt
    rw [show Variable.evaluate draw (.sample (n : Int) false id) c ov
        = sampleEvaluate draw (n : Int) false c ov from rfl, sampleEvaluate_no_exclude,
      if_pos (by omega : (n : Int) > (c.length : Int))]
  · intro n c draw id ov hc hs hn
    obtain ⟨hlen, hsub⟩ := hs
    have hnd : (draw (n + 1)).Nodup := subperm_nodup hsub hc
    have hded : (draw (n + 1)).dedup = draw (n + 1) := List.dedup_eq_self.mpr hnd
    have e1 : Variable.evaluate draw (.sample (n : Int) true id) c (some ov)
        = (if ov ∈ (draw (((n : Int)) + 1).toNat).dedup then
            .ok ((draw (((n : Int)) + 1).toNat).dedup.erase ov)
          else
            match (draw (((n : Int)) + 1).toNat).dedup with
            | [] => .error .keyError
            | _ :: t => .ok t) := by
      rw [show Variable.evaluate draw (.sample (n : Int) true id) c (some ov)
          = sampleEvaluate draw (n : Int) true c (some ov) from rfl,
        sampleEvaluate_exclude_some,
        if_neg (by omega : ¬((n : Int) + 1 > (c.length : Int))),
        if_neg (by omega : ¬((n : Int) + 1 < 0))]
    rw [show (((n : Int)) + 1).toNat = n + 1 by omega, hded] at e1
    by_cases hov : ov ∈ draw (n + 1)
    · rw [if_pos hov] at e1
      refine ⟨(draw (n + 1)).erase ov, e1, ?_, hnd.not_mem_erase, hnd.erase ov,
        fun x hx => hsub.subset (List.erase_subset ov (draw (n + 1)) hx)⟩
      rw [List.length_erase_of_mem hov, hlen]
      omega
    · rw [if_neg hov] at e1
      match hd : draw (n + 1) with
      | [] => rw [hd] at hlen; exact absurd hlen.symm (Nat.succ_ne_zero n)
      | a :: t =>
        rw [hd] at e1
        have hth : ∀ x ∈ t, x ∈ draw (n + 1) := by
          intro x hx; rw [hd]; exact List.mem_cons_of_mem a hx
        refine ⟨t, e1, ?_, fun hm => hov (hth ov hm), ?_,
          fun x hx => hsub.subset (hth x hx)⟩
        · rw [hd] at hlen
          simpa using hlen
        · rw [hd] at hnd
          exact (List.nodup_cons.mp hnd).2
  · intro n c draw id ov hlt
    rw [show Variable.evaluate draw (.sample (n : Int) true id) c (some ov)
        = sampleEvaluate draw (n : Int) true c (some ov) from rfl,
      sampleEvaluate_exclude_some,
      if_pos (by omega : (n : Int) + 1 > (c.length : Int))]
  · intro n c draw id
    rfl

/-- Witness for C3: the contract applied at the space `[1,2,3,4]` with
the draw oracle that samples a prefix, at `n = 3` (no exclusion) and
`n = 2` (excluding original value 2). -/
theorem c3_sample_evaluate_contract_witness :
    (∃ r, Variable.evaluate (fun k => ([1, 2, 3, 4] : List Int).take k)
        (.sample ((3 : Nat) : Int) false 0) [1, 2, 3, 4] none = .ok r
      ∧ r.length = 3 ∧ r.Nodup ∧ ∀ x ∈ r, x ∈ ([1, 2, 3, 4] : List Int))
    ∧ (∃ r, Variable.evaluate (fun k => ([1, 2, 3, 4] : List Int).take k)
        (.sample ((2 : Nat) : Int) true 0) [1, 2, 3, 4] (some 2) = .ok r
      ∧ r.length = 2 ∧ (2 : Int) ∉ r ∧ r.Nodup ∧ ∀ x ∈ r, x ∈ ([1, 2, 3, 4] : List Int)) :=
  ⟨c3_sample_evaluate_contract.1 3 [1, 2, 3, 4] (fun k => ([1, 2, 3, 4] : List Int).take k) 0
      (by decide) ⟨by decide, (List.take_sublist 3 [1, 2, 3, 4]).subperm⟩ (by decide),
   c3_sample_evaluate_contract.2.2.1 2 [1, 2, 3, 4]
      (fun k => ([1, 2, 3, 4] : List Int).take k) 0 2
      (by decide) ⟨by decide, (List.take_sublist 3 [1, 2, 3, 4]).subperm⟩ (by decide)⟩

/-! Association-list lemmas for the dict-merge characterization. -/

theorem alistLookup_cons {κ β : Type} [DecidableEq κ] (k0 : κ) (v : β)
    (l : List (κ × β)) (k : κ) :
    alistLookup ((k0, v) :: l) k = if k0 = k then some v else alistLookup l k := by
  by_cases h : k0 = k <;> simp [alistLookup, List.find?_cons, h]

theorem alistLookup_append_ne {κ β : Type} [DecidableEq κ] (l : List (κ × β))
    (k0 k : κ) (v : β) (h : k0 ≠ k) :
    alistLookup (l ++ [(k0, v)]) k = alistLookup l k := by
  induction l with
  | nil =>
    rw [List.nil_append, alistLookup_cons, if_neg h]
  | cons p t ih =>
    obtain ⟨k1, v1⟩ := p
    rw [List.cons_append, alistLookup_cons, alistLookup_cons]
    by_cases h1 : k1 = k
    · rw [if_pos h1, if_pos h1]
    · rw [if_neg h1, if_neg h1]
      exact ih

theorem alistLookup_append_self {κ β : Type} [DecidableEq κ] (l : List (κ × β))
    (k : κ) (v : β) (h : alistLookup l k = none) :
    alistLookup (l ++ [(k, v)]) k = some v := by
  induction l with
  | nil => simp [alistLookup]
  | cons p t ih =>
    obtain ⟨k1, v1⟩ := p
    rw [alistLookup_cons] at h
    by_cases h1 : k1 = k
    · rw [if_pos h1] at h; exact absurd h (by simp)
    · rw [if_neg h1] at h
      simpa [alistLookup_cons, h1] using ih h

theorem alistLookup_of_not_mem {κ β : Type} [DecidableEq κ] (l : List (κ × β))
    (k : κ) (h : k ∉ l.map Prod.fst) : alistLookup l k = none := by
  induction l with
  | nil => rfl
  | cons p t ih =>
    obtain ⟨k1, v1⟩ := p
    simp only [List.map_cons, List.mem_cons, not_or] at h
    rw [alistLookup_cons, if_neg (fun he => h.1 he.symm)]
    exact ih h.2

theorem alistUpdate_lookup_self {κ β : Type} [DecidableEq κ] (l : List (κ × β))
    (k : κ) (v x : β) (h : alistLookup l k = some x) :
    alistLookup (alistUpdate l k v) k = some v := by
  induction l with
  | nil => exact absurd h (by simp [alistLookup])
  | cons p t ih =>
    obtain ⟨k1, v1⟩ := p
    rw [alistLookup_cons] at h
    by_cases h1 : k1 = k
    · simp [alistUpdate, h1, alistLookup_cons]
    · rw [if_neg h1] at h
      simp only [alistUpdate, if_neg h1, alistLookup_cons, if_neg h1]
      exact ih h

theorem alistUpdate_lookup_ne {κ β : Type} [DecidableEq κ] (l : List (κ × β))
    (k0 : κ) (v : β) (k : κ) (h : k0 ≠ k) :
    alistLookup (alistUpdate l k0 v) k = alistLookup l k := by
  induction l with
  | nil => rfl
  | cons p t ih =>
    obtain ⟨k1, v1⟩ := p
    by_cases h1 : k1 = k0
    · rw [show alistUpdate ((k1, v1) :: t) k0 v = (k1, v) :: t from by
          simp [alistUpdate, h1],
        alistLookup_cons, alistLookup_cons,
        if_neg (fun he => h (h1.symm.trans he)),
        if_neg (fun he => h (h1.symm.trans he))]
    · rw [show alistUpdate ((k1, v1) :: t) k0 v = (k1, v1) :: alistUpdate t k0 v from by
          simp [alistUpdate, h1],
        alistLookup_cons, alistLookup_cons]
      by_cases h2 : k1 = k
      · rw [if_pos h2, if_pos h2]
      · rw [if_neg h2, if_neg h2]
        exact ih

/-- The per-key contract of the dict-merge loop: keys present only in the
accumulator keep their value, keys present only in the second map are
copied over, and keys present in both are bound to the recursive merge of
the two subtrees. -/
def mergedLookupSpec {κ : Type} [DecidableEq κ]
    (first second m : List (κ × VariableContainer)) : Prop :=
  ∀ k, (alistLookup second k = none → alistLookup m k = alistLookup first k)
    ∧ ∀ y, alistLookup second k = some y →
        ((alistLookup first k = none → alistLookup m k = some y)
         ∧ ∀ x, alistLookup first k = some x →
             ∃ z, merge x y = .ok z ∧ alistLookup m k = some z)

/-- The characterization above holds of any loop satisfying the two
defining equations of `mergeEntriesF`/`mergeEntriesV`, provided the second
map has no duplicate keys (Python dicts cannot). -/
theorem entriesLoop_lookup {κ : Type} [DecidableEq κ]
    (loop : List (κ × VariableContainer) → List (κ × VariableContainer) →
      Except PyErr (List (κ × VariableContainer)))
    (hnil : ∀ acc, loop acc [] = .ok acc)
    (hcons : ∀ acc k v rest, loop acc ((k, v) :: rest)
      = match alistLookup acc k with
        | none => loop (acc ++ [(k, v)]) rest
        | some old =>
          match merge old v with
          | .error e => .error e
          | .ok m => loop (alistUpdate acc k m) rest) :
    ∀ (ent acc m : List (κ × VariableContainer)),
      (ent.map Prod.fst).Nodup → loop acc ent = .ok m →
      mergedLookupSpec acc ent m := by
  intro ent
  induction ent with
  | nil =>
    intro acc m _ hm k
    rw [hnil] at hm
    obtain rfl : acc = m := Except.ok.inj hm
    constructor
    · intro _
      rfl
    · intro y hy
      exact absurd hy (by rw [show alistLookup ([] : List (κ × VariableContainer)) k
        = none from rfl]; exact Option.noConfusion)
  | cons p rest ih =>
    obtain ⟨k0, v0⟩ := p
    intro acc m hnd hm k
    have hnd2 : (k0 :: rest.map Prod.fst).Nodup := by
      rw [List.map_cons] at hnd
      exact hnd
    have hnd0 : k0 ∉ rest.map Prod.fst := (List.nodup_cons.mp hnd2).1
    have hndr : (rest.map Prod.fst).Nodup := (List.nodup_cons.mp hnd2).2
    have hrest0 : alistLookup rest k0 = none := alistLookup_of_not_mem rest k0 hnd0
    rw [hcons] at hm
    cases hacc : alistLookup acc k0 with
    | none =>
      simp only [hacc] at hm
      have IH := ih (acc ++ [(k0, v0)]) m hndr hm
      by_cases hk : k0 = k
      · subst hk
        constructor
        · intro hent
          rw [alistLookup_cons, if_pos rfl] at hent
          cases hent
        · intro y hy
          rw [alistLookup_cons, if_pos rfl] at hy
          obtain rfl : v0 = y := Option.some.inj hy
          refine ⟨fun _ => ?_, fun x hx => ?_⟩
          · rw [(IH k0).1 hrest0, alistLookup_append_self acc k0 v0 hacc]
          · rw [hacc] at hx; cases hx
      · have hconsk : alistLookup ((k0, v0) :: rest) k = alistLookup rest k := by
          rw [alistLookup_cons, if_neg hk]
        have happ : alistLookup (acc ++ [(k0, v0)]) k = alistLookup acc k :=
          alistLookup_append_ne acc k0 k v0 hk
        constructor
        · intro hent
          rw [hconsk] at hent
          rw [(IH k).1 hent, happ]
        · intro y hy
          rw [hconsk] at hy
          obtain ⟨h1, h2⟩ := (IH k).2 y hy
          exact ⟨fun hn => h1 (by rw [happ]; exact hn),
                 fun x hx => h2 x (by rw [happ]; exact hx)⟩
    | some old =>
      simp only [hacc] at hm
      cases hmg : merge old v0 with
      | error e =>
        simp only [hmg] at hm
        cases hm
      | ok z =>
        simp only [hmg] at hm
        have IH := ih (alistUpdate acc k0 z) m hndr hm
        by_cases hk : k0 = k
        · subst hk
          constructor
          · intro hent
            rw [alistLookup_cons, if_pos rfl] at hent
            cases hent
          · intro y hy
            rw [alistLookup_cons, if_pos rfl] at hy
            obtain rfl : v0 = y := Option.some.inj hy
            refine ⟨fun hn => ?_, fun x hx => ?_⟩
            · rw [hacc] at hn; cases hn
            · rw [hacc] at hx
              obtain rfl : old = x := Option.some.inj hx
              exact ⟨z, hmg, by
                rw [(IH k0).1 hrest0, alistUpdate_lookup_self acc k0 z old hacc]⟩
        · have hconsk : alistLookup ((k0, v0) :: rest) k = alistLookup rest k := by
            rw [alistLookup_cons, if_neg hk]
          have hupd : alistLookup (alistUpdate acc k0 z) k = alistLookup acc k :=
            alistUpdate_lookup_ne acc k0 z k hk
          constructor
          · intro hent
            rw [hconsk] at hent
            rw [(IH k).1 hent, hupd]
          · intro y hy
            rw [hconsk] at hy
            obtain ⟨h1, h2⟩ := (IH k).2 y hy
            exact ⟨fun hn => h1 (by rw [hupd]; exact hn),
                   fun x hx => h2 x (by rw [hupd]; exact hx)⟩

theorem setUnionI_toFinset (l1 l2 : List Int) :
    (setUnionI l1 l2).toFinset = l1.toFinset ∪ l2.toFinset := by
  ext a
  simp only [setUnionI, List.toFinset_append, Finset.mem_union, List.mem_toFinset,
    List.mem_filter, decide_eq_true_eq]
  tauto

theorem setUnionV_toFinset (l1 l2 : List Variable) :
    (setUnionV l1 l2).toFinset = l1.toFinset ∪ l2.toFinset := by
  ext a
  simp only [setUnionV, List.toFinset_append, Finset.mem_union, List.mem_toFinset,
    List.mem_filter, decide_eq_true_eq]
  tauto

/-- C7: deep merge of two value-sets unions the fixed partitions and
unions the deferred partitions (with `{1,2}` and `{2,3}` merging to
`{1,2,3}`); deep merge of two keyed-trees copies keys present on one side
only and recursively merges the subtrees of keys present on both sides,
in both key partitions. -/
theorem c7_deep_merge :
    (∀ s1 s2 : VariableSet,
      merge (.set s1) (.set s2)
        = .ok (.set ⟨setUnionI s1.fixed_parts s2.fixed_parts,
                     setUnionV s1.variable_parts s2.variable_parts⟩)
      ∧ (setUnionI s1.fixed_parts s2.fixed_parts).toFinset
          = s1.fixed_parts.toFinset ∪ s2.fixed_parts.toFinset
      ∧ (setUnionV s1.variable_parts s2.variable_parts).toFinset
          = s1.variable_parts.toFinset ∪ s2.variable_parts.toFinset)
    ∧ (∃ m : VariableSet, merge (.set ⟨[1, 2], []⟩) (.set ⟨[2, 3], []⟩) = .ok (.set m)
        ∧ m.fixed_parts.toFinset = {1, 2, 3} ∧ m.variable_parts = [])
    ∧ ∀ (f1 : List (Int × VariableContainer)) (v1 : List (Variable × VariableContainer))
        (f2 : List (Int × VariableContainer)) (v2 : List (Variable × VariableContainer))
        (m : VariableContainer),
        (f2.map Prod.fst).Nodup → (v2.map Prod.fst).Nodup →
        merge (.dict f1 v1) (.dict f2 v2) = .ok m →
        ∃ mf mv, m = .dict mf mv ∧ mergedLookupSpec f1 f2 mf ∧ mergedLookupSpec v1 v2 mv := by
  refine ⟨?_, ?_, ?_⟩
  · intro s1 s2
    exact ⟨merge_set_set s1 s2, setUnionI_toFinset _ _, setUnionV_toFinset _ _⟩
  · exact ⟨⟨setUnionI [1, 2] [2, 3], setUnionV [] []⟩, merge_set_set _ _, by decide, by decide⟩
  · intro f1 v1 f2 v2 m hndf hndv hm
    rw [merge_dict_dict] at hm
    cases hf : mergeEntriesF f1 f2 with
    | error e =>
      simp only [hf] at hm
      exact Except.noConfusion hm
    | ok mf =>
      simp only [hf] at hm
      cases hv : mergeEntriesV v1 v2 with
      | error e =>
        simp only [hv] at hm
        exact Except.noConfusion hm
      | ok mv =>
        simp only [hv] at hm
        obtain rfl : VariableContainer.dict mf mv = m := Except.ok.inj hm
        refine ⟨mf, mv, rfl, ?_, ?_⟩
        · exact entriesLoop_lookup mergeEntriesF mergeEntriesF_nil
            mergeEntriesF_cons f2 f1 mf hndf hf
        · exact entriesLoop_lookup mergeEntriesV mergeEntriesV_nil
            mergeEntriesV_cons v2 v1 mv hndv hv

/-- Witness for C7's hypotheses: two concrete keyed-trees sharing key 1
with differing value-set subtrees, and duplicate-free second key maps. -/
theorem c7_deep_merge_witness :
    ∃ mf mv, (VariableContainer.dict
        [(1, .set ⟨[10, 20], []⟩), (4, .set ⟨[9], []⟩)] []) = .dict mf mv
      ∧ mergedLookupSpec [(1, VariableContainer.set ⟨[10], []⟩)]
          [(1, VariableContainer.set ⟨[20], []⟩), (4, VariableContainer.set ⟨[9], []⟩)] mf
      ∧ mergedLookupSpec ([] : List (Variable × VariableContainer)) [] mv :=
  c7_deep_merge.2.2 [(1, .set ⟨[10], []⟩)] [] [(1, .set ⟨[20], []⟩), (4, .set ⟨[9], []⟩)] []
    (.dict [(1, .set ⟨[10, 20], []⟩), (4, .set ⟨[9], []⟩)] [])
    (by decide) (by decide)
    (merge_of_engine 8 rfl)

/-- A literal token with the default markers: matches no marker and is
accepted by the integer converter. -/
def litTok (t : List Char) : Bool :=
  !startsWithL t ['#'] && !startsWithL t ['?'] && !(t == ['*']) && (pyIntOf t).isSome

/-- A literal-only listing segment: either a plain literal token or a
literal range `a~b`. -/
def litSeg (seg : List Char) : Bool :=
  if 0 ≤ pyFind seg ['~'] 0 then
    match pySplit seg ['~'] with
    | [a, b] => litTok a && litTok b
    | _ => false
  else litTok seg

/-- The set of values a literal-only segment describes (ranges expanded
inclusively). -/
def segValues (seg : List Char) : Finset Int :=
  if 0 ≤ pyFind seg ['~'] 0 then
    match pySplit seg ['~'] with
    | [a, b] => Finset.Icc ((pyIntOf a).getD 0) ((pyIntOf b).getD 0)
    | _ => ∅
  else {(pyIntOf seg).getD 0}

/-- The set of values a literal-only listing describes. -/
def describedValues (listing : List Char) : Finset Int :=
  if listing.length > 0 then
    ((pySplit listing [',']).map segValues).foldr (· ∪ ·) ∅
  else ∅

theorem litTok_convert (t : List Char) (p : Int) (h : litTok t = true) :
    convert t intConverter ['#'] ['?'] ['*'] p = .ok (.lit ((pyIntOf t).getD 0)) := by
  simp only [litTok, Bool.and_eq_true, Bool.not_eq_true', beq_eq_false_iff_ne] at h
  obtain ⟨⟨⟨h1, h2⟩, h3⟩, h4⟩ := h
  obtain ⟨v, hv⟩ := Option.isSome_iff_exists.mp h4
  rw [convert, if_neg (by rw [h1]; exact Bool.false_ne_true),
    if_neg (by rw [h2]; exact Bool.false_ne_true), if_neg h3]
  rw [show intConverter t = some v from hv, hv]
  rfl

theorem setAddI_toFinset (l : List Int) (x : Int) :
    (setAddI l x).toFinset = insert x l.toFinset := by
  by_cases h : x ∈ l
  · rw [setAddI, if_pos h]
    rw [Finset.insert_eq_self.mpr (List.mem_toFinset.mpr h)]
  · rw [setAddI, if_neg h]
    ext a
    simp [List.mem_insert_iff, or_comm]

theorem foldl_setAddI_toFinset : ∀ (l fixed : List Int),
    (l.foldl setAddI fixed).toFinset = fixed.toFinset ∪ l.toFinset := by
  intro l
  induction l with
  | nil => intro fixed; simp
  | cons a t ih =>
    intro fixed
    rw [List.foldl_cons, ih (setAddI fixed a), setAddI_toFinset]
    ext b
    simp only [Finset.mem_union, Finset.mem_insert, List.toFinset_cons]
    tauto

theorem mem_pyRangeIncl (x y a : Int) : a ∈ pyRangeIncl x y ↔ x ≤ a ∧ a ≤ y := by
  constructor
  · intro h
    obtain ⟨k, hk, he⟩ := List.mem_map.mp h
    rw [List.mem_range] at hk
    omega
  · intro h
    exact List.mem_map.mpr ⟨(a - x).toNat, List.mem_range.mpr (by omega), by omega⟩

theorem pyRangeIncl_toFinset (x y : Int) :
    (pyRangeIncl x y).toFinset = Finset.Icc x y := by
  ext a
  rw [List.mem_toFinset, Finset.mem_Icc]
  exact mem_pyRangeIncl x y a

/-- Stepping `unravelSegs` over a literal range segment. -/
theorem unravelSegs_cons_range (seg : List Char) (rest : List (List Char))
    (pos : Int) (fixed : List Int) (vars : List Variable) (a b : List Char)
    (hr : 0 ≤ pyFind seg defaultSym.range_delimiter 0)
    (hsp : pySplit seg defaultSym.range_delimiter = [a, b])
    (hta : litTok a = true) (htb : litTok b = true) :
    unravelSegs defaultSym intConverter (seg :: rest) pos fixed vars
      = unravelSegs defaultSym intConverter rest
          (pos + seg.length + defaultSym.listing_delimiter.length)
          ((pyRangeIncl ((pyIntOf a).getD 0) ((pyIntOf b).getD 0)).foldl setAddI fixed)
          vars := by
  rw [unravelSegs, if_pos hr]
  split
  · rename_i first_tmp last_tmp heq
    have h12 : [a, b] = [first_tmp, last_tmp] := hsp.symm.trans heq
    injection h12 with e1 e2
    injection e2 with e2 e3
    subst e1
    subst e2
    rw [show defaultSym.index_specifier = ['#'] from rfl,
      show defaultSym.random_specifier = ['?'] from rfl,
      show defaultSym.all_specifier = ['*'] from rfl]
    rw [litTok_convert a pos hta, litTok_convert b
      (pos + (a.length : Int) + (defaultSym.range_delimiter.length : Int)) htb]
    rfl
  · rename_i hne
    exact absurd hsp (hne a b)

/-- Stepping `unravelSegs` over a plain literal segment. -/
theorem unravelSegs_cons_plain (seg : List Char) (rest : List (List Char))
    (pos : Int) (fixed : List Int) (vars : List Variable)
    (hr : ¬ 0 ≤ pyFind seg defaultSym.range_delimiter 0)
    (ht : litTok seg = true) :
    unravelSegs defaultSym intConverter (seg :: rest) pos fixed vars
      = unravelSegs defaultSym intConverter rest
          (pos + seg.length + defaultSym.listing_delimiter.length)
          (setAddI fixed ((pyIntOf seg).getD 0)) vars := by
  rw [unravelSegs, if_neg hr]
  rw [show defaultSym.index_specifier = ['#'] from rfl,
    show defaultSym.random_specifier = ['?'] from rfl,
    show defaultSym.all_specifier = ['*'] from rfl]
  rw [litTok_convert seg pos ht]
  rfl

theorem unravelSegs_lit : ∀ (segs : List (List Char)) (pos : Int)
    (fixed : List Int) (vars : List Variable),
    segs.all litSeg = true →
    ∃ s, unravelSegs defaultSym intConverter segs pos fixed vars = .ok s
      ∧ s.fixed_parts.toFinset
          = fixed.toFinset ∪ (segs.map segValues).foldr (· ∪ ·) ∅
      ∧ s.variable_parts = vars := by
  intro segs
  induction segs with
  | nil =>
    intro pos fixed vars _
    exact ⟨⟨fixed, vars⟩, rfl, by simp, rfl⟩
  | cons seg rest ih =>
    intro pos fixed vars hall
    rw [List.all_cons, Bool.and_eq_true] at hall
    obtain ⟨hseg, hrest⟩ := hall
    by_cases hr : 0 ≤ pyFind seg defaultSym.range_delimiter 0
    · rw [litSeg, if_pos (by exact hr)] at hseg
      cases hsp : pySplit seg ['~'] with
      | nil => rw [hsp] at hseg; cases hseg
      | cons a t1 =>
        cases t1 with
        | nil => rw [hsp] at hseg; cases hseg
        | cons b t2 =>
          cases t2 with
          | cons c t3 => rw [hsp] at hseg; cases hseg
          | nil =>
            rw [hsp, Bool.and_eq_true] at hseg
            obtain ⟨hta, htb⟩ := hseg
            rw [unravelSegs_cons_range seg rest pos fixed vars a b hr hsp hta htb]
            obtain ⟨s, h1, h2, h3⟩ := ih
              (pos + seg.length + defaultSym.listing_delimiter.length)
              ((pyRangeIncl ((pyIntOf a).getD 0) ((pyIntOf b).getD 0)).foldl setAddI fixed)
              vars hrest
            refine ⟨s, h1, ?_, h3⟩
            rw [h2, foldl_setAddI_toFinset, pyRangeIncl_toFinset,
              List.map_cons, List.foldr_cons]
            rw [show segValues seg
              = Finset.Icc ((pyIntOf a).getD 0) ((pyIntOf b).getD 0) from by
                rw [segValues, if_pos (by exact hr), hsp]]
            rw [Finset.union_assoc]
    · rw [litSeg, if_neg (by exact hr)] at hseg
      rw [unravelSegs_cons_plain seg rest pos fixed vars hr hseg]
      obtain ⟨s, h1, h2, h3⟩ := ih
        (pos + seg.length + defaultSym.listing_delimiter.length)
        (setAddI fixed ((pyIntOf seg).getD 0)) vars hrest
      refine ⟨s, h1, ?_, h3⟩
      rw [h2, setAddI_toFinset, List.map_cons, List.foldr_cons]
      rw [show segValues seg = {(pyIntOf seg).getD 0} from by
        rw [segValues, if_neg (by exact hr)]]
      ext w
      simp only [Finset.mem_union, Finset.mem_insert, Finset.mem_singleton]
      tauto

/-- C9: for every literal-only listing, the listing resolver with the
integer converter returns a value-set with no deferred part whose fixed
part is exactly the set of described values, literal ranges expanded
inclusively and duplicates collapsed; the empty listing yields the empty
value-set. -/
theorem c9_literal_listing (listing : List Char) (pos : Int)
    (h : listing = [] ∨ (pySplit listing [',']).all litSeg = true) :
    ∃ s, unravel listing intConverter defaultSym pos = .ok s
      ∧ s.fixed_parts.toFinset = describedValues listing
      ∧ s.variable_parts = [] := by
  match listing, h with
  | [], _ =>
    exact ⟨⟨[], []⟩, rfl, by decide, rfl⟩
  | c :: cs, h =>
    have hall : (pySplit (c :: cs) [',']).all litSeg = true := by
      cases h with
      | inl h0 => cases h0
      | inr h0 => exact h0
    rw [unravel, if_pos (by simp)]
    obtain ⟨s, h1, h2, h3⟩ := unravelSegs_lit (pySplit (c :: cs) [',']) pos [] [] hall
    refine ⟨s, h1, ?_, h3⟩
    rw [h2, describedValues, if_pos (by simp)]
    simp

/-- Witness for C9 at the listing "1,3~5,7" (and at the empty listing). -/
theorem c9_literal_listing_witness :
    (∃ s, unravel "1,3~5,7".toList intConverter defaultSym 0 = .ok s
      ∧ s.fixed_parts.toFinset = ({1, 3, 4, 5, 7} : Finset Int)
      ∧ s.variable_parts = [])
    ∧ ∃ s, unravel "".toList intConverter defaultSym 0 = .ok s
      ∧ s.fixed_parts.toFinset = (∅ : Finset Int)
      ∧ s.variable_parts = [] := by
  constructor
  · obtain ⟨s, h1, h2, h3⟩ := c9_literal_listing "1,3~5,7".toList 0 (Or.inr (by decide))
    exact ⟨s, h1, h2.trans (by decide), h3⟩
  · obtain ⟨s, h1, h2, h3⟩ := c9_literal_listing "".toList 0 (Or.inl rfl)
    exact ⟨s, h1, h2.trans (by decide), h3⟩

/-- Witness for the second part of C10 at the concrete token "x". -/
theorem c10_classifier_plain_valueerror_witness :
    startsWithL "x".toList ['#'] = false ∧ startsWithL "x".toList ['?'] = false
    ∧ "x".toList ≠ ['*'] ∧ (0 : Int) = 0 ∧ PMsg.cannotConvert "x".toList
      = .cannotConvert "x".toList :=
  c10_classifier_plain_valueerror.2 "x".toList intConverter 0 0
    (.cannotConvert "x".toList) (by decide)


/-! # A heap model for merge (C8)

`variables.merge` promises structural independence of its result from both
inputs (the dict branch deep-copies, the set branch builds fresh unions).
Aliasing cannot be observed in a pure embedding, so the copying behaviour
is modelled on an explicit heap: containers become graph nodes addressed
by `Nat`, and `hEngine` re-implements `deepcopy` and `merge` as
heap-growing operations that mirror the source line by line (set merge
allocates one fresh union node; dict merge copies both inputs, folds the
second copy's entries into the first copy's, and allocates the result). -/

/-- A heap node: a value-set leaf (scalar elements are immutable in the
source), or a dict whose fixed and variable entries point to child
nodes. -/
inductive HNode where
  | hset (fixed : List Int) (vars : List Variable)
  | hdict (fixed : List (Int × Nat)) (vars : List (Variable × Nat))
deriving DecidableEq

abbrev Heap := List HNode

/-- The child addresses directly referenced by a node. -/
def childPtrs : HNode → List Nat
  | .hset _ _ => []
  | .hdict fp vp => fp.map Prod.snd ++ vp.map Prod.snd

/-- Call states of the heap engine: `copy` is `deepcopy`, `mtops` is
`merge`, the entry states are the copy/merge loops over dict entries. -/
inductive HC where
  | copy (a : Nat)
  | copyF (entries : List (Int × Nat))
  | copyV (entries : List (Variable × Nat))
  | mtops (a b : Nat)
  | mentsF (acc rest : List (Int × Nat))
  | mentsV (acc rest : List (Variable × Nat))
deriving DecidableEq

/-- Results of the heap engine. -/
inductive HR where
  | addr (a : Nat)
  | fents (entries : List (Int × Nat))
  | vents (entries : List (Variable × Nat))
deriving DecidableEq

/-- The fuelled heap engine for deepcopy and merge; allocation appends at
the end of the heap, exactly like fresh Python objects. -/
def hEngine : Nat → Heap → HC → Option (Heap × HR)
  | 0, _, _ => none
  | fuel + 1, h, .copy a =>
    match h.get? a with
    | none => none
    | some (.hset fp vp) => some (h ++ [.hset fp vp], .addr h.length)
    | some (.hdict fp vp) =>
      match hEngine fuel h (.copyF fp) with
      | some (h1, .fents fp1) =>
        match hEngine fuel h1 (.copyV vp) with
        | some (h2, .vents vp1) => some (h2 ++ [.hdict fp1 vp1], .addr h2.length)
        | _ => none
      | _ => none
  | _ + 1, h, .copyF [] => some (h, .fents [])
  | fuel + 1, h, .copyF ((k, v) :: rest) =>
    match hEngine fuel h (.copy v) with
    | some (h1, .addr v1) =>
      match hEngine fuel h1 (.copyF rest) with
      | some (h2, .fents rest1) => some (h2, .fents ((k, v1) :: rest1))
      | _ => none
    | _ => none
  | _ + 1, h, .copyV [] => some (h, .vents [])
  | fuel + 1, h, .copyV ((k, v) :: rest) =>
    match hEngine fuel h (.copy v) with
    | some (h1, .addr v1) =>
      match hEngine fuel h1 (.copyV rest) with
      | some (h2, .vents rest1) => some (h2, .vents ((k, v1) :: rest1))
      | _ => none
    | _ => none
  | fuel + 1, h, .mtops a b =>
    match h.get? a, h.get? b with
    | some (.hset f1 v1), some (.hset f2 v2) =>
      some (h ++ [.hset (setUnionI f1 f2) (setUnionV v1 v2)], .addr h.length)
    | some (.hdict _ _), some (.hdict _ _) =>
      match hEngine fuel h (.copy a) with
      | some (h1, .addr a1) =>
        match hEngine fuel h1 (.copy b) with
        | some (h2, .addr b1) =>
          match h2.get? a1, h2.get? b1 with
          | some (.hdict fpa vpa), some (.hdict fpb vpb) =>
            match hEngine fuel h2 (.mentsF fpa fpb) with
            | some (h3, .fents f3) =>
              match hEngine fuel h3 (.mentsV vpa vpb) with
              | some (h4, .vents v4) =>
                some (h4 ++ [.hdict f3 v4], .addr h4.length)
              | _ => none
            | _ => none
          | _, _ => none
        | _ => none
      | _ => none
    | _, _ => none
  | _ + 1, h, .mentsF acc [] => some (h, .fents acc)
  | fuel + 1, h, .mentsF acc ((k, v) :: rest) =>
    match alistLookup acc k with
    | none => hEngine fuel h (.mentsF (acc ++ [(k, v)]) rest)
    | some v0 =>
      match hEngine fuel h (.mtops v0 v) with
      | some (h1, .addr r) => hEngine fuel h1 (.mentsF (alistUpdate acc k r) rest)
      | _ => none
  | _ + 1, h, .mentsV acc [] => some (h, .vents acc)
  | fuel + 1, h, .mentsV acc ((k, v) :: rest) =>
    match alistLookup acc k with
    | none => hEngine fuel h (.mentsV (acc ++ [(k, v)]) rest)
    | some v0 =>
      match hEngine fuel h (.mtops v0 v) with
      | some (h1, .addr r) => hEngine fuel h1 (.mentsV (alistUpdate acc k r) rest)
      | _ => none

/-- Every node at address `≥ n` only points at addresses `≥ n` (the region
allocated after `n` is self-contained). -/
def AboveClosed (h : Heap) (n : Nat) : Prop :=
  ∀ i nd, n ≤ i → h.get? i = some nd → ∀ x ∈ childPtrs nd, n ≤ x

/-- Addresses reachable from `a` within `fuel` steps. -/
def hReachL : Nat → Heap → Nat → List Nat
  | 0, _, _ => []
  | fuel + 1, h, a =>
    a :: (match h.get? a with
      | some nd => (childPtrs nd).bind (hReachL fuel h)
      | none => [])

theorem aboveClosed_nil_region (h : Heap) : AboveClosed h h.length := by
  intro i nd hi hget x _
  rw [List.get?_eq_none.mpr hi] at hget
  cases hget

theorem aboveClosed_append (h : Heap) (n : Nat) (nd : HNode)
    (hA : AboveClosed h n) (hnd : ∀ x ∈ childPtrs nd, n ≤ x) :
    AboveClosed (h ++ [nd]) n := by
  intro i nd2 hi hget x hx
  by_cases hlt : i < h.length
  · rw [List.get?_append hlt] at hget
    exact hA i nd2 hi hget x hx
  · rw [List.get?_append_right (by omega)] at hget
    by_cases hi0 : i - h.length = 0
    · rw [hi0] at hget
      injection hget with he
      subst he
      exact hnd x hx
    · rw [List.get?_eq_none.mpr (by simp; omega)] at hget
      cases hget

theorem hReach_ge (h : Heap) (n : Nat) (hA : AboveClosed h n) :
    ∀ (fuel a : Nat), n ≤ a → ∀ x ∈ hReachL fuel h a, n ≤ x := by
  intro fuel
  induction fuel with
  | zero =>
    intro a ha x hx
    simp [hReachL] at hx
  | succ f ih =>
    intro a ha x hx
    rw [hReachL] at hx
    rcases List.mem_cons.mp hx with rfl | hx2
    · exact ha
    · cases hg : h.get? a with
      | none =>
        rw [hg] at hx2
        simp at hx2
      | some nd =>
        rw [hg] at hx2
        obtain ⟨c, hc, hxc⟩ := List.mem_bind.mp hx2
        exact ih c (hA a nd ha hg c hc) x hxc

/-- Input-pointer constraint for the entry-merging states: the engine's
result lists may retain these input addresses. -/
def cArgOk (n : Nat) : HC → Prop
  | .mentsF acc rest =>
      (∀ x ∈ acc.map Prod.snd, n ≤ x) ∧ (∀ x ∈ rest.map Prod.snd, n ≤ x)
  | .mentsV acc rest =>
      (∀ x ∈ acc.map Prod.snd, n ≤ x) ∧ (∀ x ∈ rest.map Prod.snd, n ≤ x)
  | _ => True

/-- Every address in an engine result lies in the fresh region. -/
def rOutGE (n : Nat) : HR → Prop
  | .addr a => n ≤ a
  | .fents es => ∀ x ∈ es.map Prod.snd, n ≤ x
  | .vents es => ∀ x ∈ es.map Prod.snd, n ≤ x

theorem alistUpdate_snd_mem {κ β : Type} [DecidableEq κ] :
    ∀ (l : List (κ × β)) (k : κ) (r x : β),
      x ∈ (alistUpdate l k r).map Prod.snd → x ∈ l.map Prod.snd ∨ x = r := by
  intro l k r
  induction l with
  | nil =>
    intro x hx
    simp [alistUpdate] at hx
  | cons p t ih =>
    intro x hx
    obtain ⟨k1, v1⟩ := p
    rw [alistUpdate] at hx
    by_cases hk : k1 = k
    · rw [if_pos hk, List.map_cons, List.mem_cons] at hx
      rcases hx with rfl | hx2
      · right; rfl
      · left
        rw [List.map_cons, List.mem_cons]
        right
        exact hx2
    · rw [if_neg hk, List.map_cons, List.mem_cons] at hx
      rcases hx with rfl | hx2
      · left
        rw [List.map_cons, List.mem_cons]
        left
        rfl
      · rcases ih x hx2 with h1 | h1
        · left
          rw [List.map_cons, List.mem_cons]
          right
          exact h1
        · right
          exact h1

theorem hEngine_spec (n : Nat) : ∀ (fuel : Nat) (h : Heap) (c : HC) (h2 : Heap) (r : HR),
    hEngine fuel h c = some (h2, r) → n ≤ h.length → AboveClosed h n → cArgOk n c →
    (∃ Δ, h2 = h ++ Δ) ∧ n ≤ h2.length ∧ AboveClosed h2 n ∧ rOutGE n r := by
  intro fuel
  induction fuel with
  | zero =>
    intro h c h2 r hm hn hA hC
    simp [hEngine] at hm
  | succ f ih =>
    intro h c h2 r hm hn hA hC
    cases c with
    | copy a =>
      rw [hEngine] at hm
      split at hm
      · simp at hm
      · rename_i fp vp heq
        injection hm with hp
        injection hp with hh hr2
        subst hh
        subst hr2
        refine ⟨⟨[HNode.hset fp vp], rfl⟩, by simp; omega, ?_, ?_⟩
        · exact aboveClosed_append h n _ hA (by intro x hx; simp [childPtrs] at hx)
        · show n ≤ h.length
          exact hn
      · rename_i fp vp heq
        split at hm
        · rename_i h1 fp1 he1
          split at hm
          · rename_i h2x vp1 he2
            injection hm with hp
            injection hp with hh hr2
            subst hh
            subst hr2
            obtain ⟨⟨d1, hp1⟩, hl1, hA1, ho1⟩ := ih h (.copyF fp) h1 (.fents fp1) he1 hn hA trivial
            obtain ⟨⟨d2, hp2⟩, hl2, hA2, ho2⟩ := ih h1 (.copyV vp) h2x (.vents vp1) he2 hl1 hA1 trivial
            refine ⟨⟨d1 ++ (d2 ++ [HNode.hdict fp1 vp1]), by rw [hp2, hp1]; simp⟩,
              by simp; omega, ?_, ?_⟩
            · refine aboveClosed_append h2x n _ hA2 ?_
              intro x hx
              simp only [childPtrs] at hx
              rcases List.mem_append.mp hx with h1x | h1x
              · exact ho1 x h1x
              · exact ho2 x h1x
            · show n ≤ h2x.length
              exact hl2
          · simp at hm
        · simp at hm
    | copyF es =>
      cases es with
      | nil =>
        rw [hEngine] at hm
        injection hm with hp
        injection hp with hh hr2
        subst hh
        subst hr2
        refine ⟨⟨[], by simp⟩, hn, hA, ?_⟩
        intro x hx
        simp at hx
      | cons kv rest =>
        obtain ⟨k, v⟩ := kv
        rw [hEngine] at hm
        split at hm
        · rename_i h1 v1 he1
          split at hm
          · rename_i h2x rest1 he2
            injection hm with hp
            injection hp with hh hr2
            subst hh
            subst hr2
            obtain ⟨⟨d1, hp1⟩, hl1, hA1, ho1⟩ := ih h (.copy v) h1 (.addr v1) he1 hn hA trivial
            obtain ⟨⟨d2, hp2⟩, hl2, hA2, ho2⟩ := ih h1 (.copyF rest) h2x (.fents rest1) he2 hl1 hA1 trivial
            refine ⟨⟨d1 ++ d2, by rw [hp2, hp1]; simp⟩, hl2, hA2, ?_⟩
            intro x hx
            rw [List.map_cons, List.mem_cons] at hx
            rcases hx with rfl | hx2
            · exact ho1
            · exact ho2 x hx2
          · simp at hm
        · simp at hm
    | copyV es =>
      cases es with
      | nil =>
        rw [hEngine] at hm
        injection hm with hp
        injection hp with hh hr2
        subst hh
        subst hr2
        refine ⟨⟨[], by simp⟩, hn, hA, ?_⟩
        intro x hx
        simp at hx
      | cons kv rest =>
        obtain ⟨k, v⟩ := kv
        rw [hEngine] at hm
        split at hm
        · rename_i h1 v1 he1
          split at hm
          · rename_i h2x rest1 he2
            injection hm with hp
            injection hp with hh hr2
            subst hh
            subst hr2
            obtain ⟨⟨d1, hp1⟩, hl1, hA1, ho1⟩ := ih h (.copy v) h1 (.addr v1) he1 hn hA trivial
            obtain ⟨⟨d2, hp2⟩, hl2, hA2, ho2⟩ := ih h1 (.copyV rest) h2x (.vents rest1) he2 hl1 hA1 trivial
            refine ⟨⟨d1 ++ d2, by rw [hp2, hp1]; simp⟩, hl2, hA2, ?_⟩
            intro x hx
            rw [List.map_cons, List.mem_cons] at hx
            rcases hx with rfl | hx2
            · exact ho1
            · exact ho2 x hx2
          · simp at hm
        · simp at hm
    | mtops a b =>
      rw [hEngine] at hm
      split at hm
      · rename_i f1 v1 f2 v2 heqa heqb
        injection hm with hp
        injection hp with hh hr2
        subst hh
        subst hr2
        refine ⟨⟨[HNode.hset (setUnionI f1 f2) (setUnionV v1 v2)], rfl⟩, by simp; omega, ?_, ?_⟩
        · exact aboveClosed_append h n _ hA (by intro x hx; simp [childPtrs] at hx)
        · show n ≤ h.length
          exact hn
      · rename_i fa0 va0 fb0 vb0 heqa heqb
        split at hm
        · rename_i h1 a1 he1
          split at hm
          · rename_i h2x b1 he2
            split at hm
            · rename_i fpa vpa fpb vpb hna hnb
              split at hm
              · rename_i h3 f3 he3
                split at hm
                · rename_i h4 v4 he4
                  injection hm with hp
                  injection hp with hh hr2
                  subst hh
                  subst hr2
                  obtain ⟨⟨d1, hp1⟩, hl1, hA1, ho1⟩ := ih h (.copy a) h1 (.addr a1) he1 hn hA trivial
                  obtain ⟨⟨d2, hp2⟩, hl2, hA2, ho2⟩ := ih h1 (.copy b) h2x (.addr b1) he2 hl1 hA1 trivial
                  have hch1 := hA2 a1 _ ho1 hna
                  have hch2 := hA2 b1 _ ho2 hnb
                  obtain ⟨⟨d3, hp3⟩, hl3, hA3, ho3⟩ := ih h2x (.mentsF fpa fpb) h3 (.fents f3) he3 hl2 hA2
                    ⟨fun x hx => hch1 x (List.mem_append_left _ hx),
                     fun x hx => hch2 x (List.mem_append_left _ hx)⟩
                  obtain ⟨⟨d4, hp4⟩, hl4, hA4, ho4⟩ := ih h3 (.mentsV vpa vpb) h4 (.vents v4) he4 hl3 hA3
                    ⟨fun x hx => hch1 x (List.mem_append_right _ hx),
                     fun x hx => hch2 x (List.mem_append_right _ hx)⟩
                  refine ⟨⟨d1 ++ (d2 ++ (d3 ++ (d4 ++ [HNode.hdict f3 v4]))),
                    by rw [hp4, hp3, hp2, hp1]; simp⟩, by simp; omega, ?_, ?_⟩
                  · refine aboveClosed_append h4 n _ hA4 ?_
                    intro x hx
                    simp only [childPtrs] at hx
                    rcases List.mem_append.mp hx with h1x | h1x
                    · exact ho3 x h1x
                    · exact ho4 x h1x
                  · show n ≤ h4.length
                    exact hl4
                · simp at hm
              · simp at hm
            · simp at hm
          · simp at hm
        · simp at hm
      · simp at hm
    | mentsF acc rest =>
      cases rest with
      | nil =>
        rw [hEngine] at hm
        injection hm with hp
        injection hp with hh hr2
        subst hh
        subst hr2
        exact ⟨⟨[], by simp⟩, hn, hA, hC.1⟩
      | cons kv rest =>
        obtain ⟨k, v⟩ := kv
        rw [hEngine] at hm
        split at hm
        · rename_i heq
          refine ih h (.mentsF (acc ++ [(k, v)]) rest) h2 r hm hn hA ⟨?_, ?_⟩
          · intro x hx
            rw [List.map_append, List.mem_append] at hx
            rcases hx with h1x | h1x
            · exact hC.1 x h1x
            · rw [show x = v from by simpa using h1x]
              exact hC.2 v (by simp)
          · intro x hx
            exact hC.2 x (by rw [List.map_cons, List.mem_cons]; right; exact hx)
        · rename_i v0 heq
          split at hm
          · rename_i h1 r1 he1
            obtain ⟨⟨d1, hp1⟩, hl1, hA1, ho1⟩ := ih h (.mtops v0 v) h1 (.addr r1) he1 hn hA trivial
            obtain ⟨⟨d2, hp2⟩, hl2, hA2, ho2⟩ := ih h1 (.mentsF (alistUpdate acc k r1) rest) h2 r hm hl1 hA1
              ⟨fun x hx => by
                rcases alistUpdate_snd_mem acc k r1 x hx with h1x | h1x
                · exact hC.1 x h1x
                · subst h1x
                  exact ho1,
               fun x hx => hC.2 x (by rw [List.map_cons, List.mem_cons]; right; exact hx)⟩
            exact ⟨⟨d1 ++ d2, by rw [hp2, hp1]; simp⟩, hl2, hA2, ho2⟩
          · simp at hm
    | mentsV acc rest =>
      cases rest with
      | nil =>
        rw [hEngine] at hm
        injection hm with hp
        injection hp with hh hr2
        subst hh
        subst hr2
        exact ⟨⟨[], by simp⟩, hn, hA, hC.1⟩
      | cons kv rest =>
        obtain ⟨k, v⟩ := kv
        rw [hEngine] at hm
        split at hm
        · rename_i heq
          refine ih h (.mentsV (acc ++ [(k, v)]) rest) h2 r hm hn hA ⟨?_, ?_⟩
          · intro x hx
            rw [List.map_append, List.mem_append] at hx
            rcases hx with h1x | h1x
            · exact hC.1 x h1x
            · rw [show x = v from by simpa using h1x]
              exact hC.2 v (by simp)
          · intro x hx
            exact hC.2 x (by rw [List.map_cons, List.mem_cons]; right; exact hx)
        · rename_i v0 heq
          split at hm
          · rename_i h1 r1 he1
            obtain ⟨⟨d1, hp1⟩, hl1, hA1, ho1⟩ := ih h (.mtops v0 v) h1 (.addr r1) he1 hn hA trivial
            obtain ⟨⟨d2, hp2⟩, hl2, hA2, ho2⟩ := ih h1 (.mentsV (alistUpdate acc k r1) rest) h2 r hm hl1 hA1
              ⟨fun x hx => by
                rcases alistUpdate_snd_mem acc k r1 x hx with h1x | h1x
                · exact hC.1 x h1x
                · subst h1x
                  exact ho1,
               fun x hx => hC.2 x (by rw [List.map_cons, List.mem_cons]; right; exact hx)⟩
            exact ⟨⟨d1 ++ d2, by rw [hp2, hp1]; simp⟩, hl2, hA2, ho2⟩
          · simp at hm

/-- C8: merge returns a container structurally independent of both inputs.
On the heap model: if `hEngine` merges the containers at `a` and `b` in
heap `h` yielding heap `h2` and result address `r`, then for every heap
`g` that differs from `h2` only at addresses reachable from the merge
result (an arbitrary mutation of the result's partitions or any nested
subtree reachable from it), every node reachable from `a` and every node
reachable from `b` is unchanged: the merged result lives entirely in
freshly allocated cells disjoint from both inputs. -/
theorem c8_merge_structural_independence
    (fuel fa fb fr : Nat) (h h2 : Heap) (a b r : Nat) (g : Heap)
    (hm : hEngine fuel h (.mtops a b) = some (h2, .addr r))
    (hca : ∀ x ∈ hReachL fa h a, x < h.length)
    (hcb : ∀ x ∈ hReachL fb h b, x < h.length)
    (hg : ∀ i, i ∉ hReachL fr h2 r → g.get? i = h2.get? i) :
    (∀ x ∈ hReachL fa h a, g.get? x = h.get? x)
    ∧ (∀ x ∈ hReachL fb h b, g.get? x = h.get? x) := by
  obtain ⟨⟨d, hpre⟩, hlen, hA2, hr⟩ :=
    hEngine_spec h.length fuel h (.mtops a b) h2 (.addr r) hm le_rfl
      (aboveClosed_nil_region h) trivial
  have core : ∀ x, x < h.length → g.get? x = h.get? x := by
    intro x hx
    have hnr : x ∉ hReachL fr h2 r := by
      intro hmem
      have := hReach_ge h2 h.length hA2 fr r hr x hmem
      omega
    rw [hg x hnr, hpre, List.get?_append hx]
  exact ⟨fun x hx => core x (hca x hx), fun x hx => core x (hcb x hx)⟩

/-- Concrete four-node heap: two value-set leaves and two one-key dicts
sharing the key 1. -/
def heapW : Heap :=
  [HNode.hset [1, 2] [], HNode.hset [2, 3] [],
   HNode.hdict [(1, 0)] [], HNode.hdict [(1, 1)] []]

/-- The heap after merging the dicts at addresses 2 and 3: both are
deep-copied (cells 4-7), the shared key's sets merge into a fresh union
cell 8, and the result dict is cell 9. -/
def heapW2 : Heap :=
  heapW ++ [HNode.hset [1, 2] [], HNode.hdict [(1, 4)] [],
    HNode.hset [2, 3] [], HNode.hdict [(1, 6)] [],
    HNode.hset [1, 2, 3] [], HNode.hdict [(1, 8)] []]

/-- Witness for `c8_merge_structural_independence`: merge the two dicts,
then overwrite the merge result's cell; both inputs read back unchanged. -/
theorem c8_merge_structural_independence_witness :
    (∀ x ∈ hReachL 10 heapW 2, (heapW2.set 9 (HNode.hset [99] [])).get? x = heapW.get? x)
    ∧ (∀ x ∈ hReachL 10 heapW 3, (heapW2.set 9 (HNode.hset [99] [])).get? x = heapW.get? x) :=
  c8_merge_structural_independence 20 10 10 10 heapW heapW2 2 3 9
    (heapW2.set 9 (HNode.hset [99] []))
    (by rfl) (by decide) (by decide)
    (by
      intro i hi
      have h9 : (9 : Nat) ∈ hReachL 10 heapW2 9 := by decide
      exact List.get?_set_ne _ _ (fun he => hi (he ▸ h9)))

end CArgs
